import Mathlib

/-!
# Verification of the Hatx service caching core

Shallow embedding of `src/hatx-service.ts`: the key builder
(`sortValue` / `stableSerialize`), the deduplicating TTL cache
(`cacheRequest` over the `lru-cache` dependency), the pool routing of the
facade operations, and the constructor's cache-option resolution
(`resolveCacheOptions`).

JavaScript values appearing in cache-key payloads are embedded as
`JsValue`; machine time is `Nat` milliseconds; promises are entries of an
explicit heap addressed by `Nat` identifiers, created pending and settled
by an explicit `settle` step (the single-threaded cooperative model of the
source: cache bookkeeping is synchronous, suspension happens only at the
transport call).
-/

set_option maxHeartbeats 1000000

namespace Hatx

/-- Embedding of the JSON-like JavaScript values that flow into
`stableSerialize` (strings, numbers, booleans, `null`, `undefined`,
arrays, plain objects).  Object fields are listed in insertion order;
numbers in the actual payloads (versions, field counts) are integers. -/
inductive JsValue where
  | undef : JsValue
  | null : JsValue
  | boolean (b : Bool) : JsValue
  | num (n : Int) : JsValue
  | str (s : String) : JsValue
  | arr (xs : List JsValue) : JsValue
  | obj (fs : List (String × JsValue)) : JsValue

/-- `true` exactly on the `undefined` value. -/
def JsValue.isUndef : JsValue → Bool
  | .undef => true
  | _ => false

/-- Lexicographic strict order on character sequences, the comparison
behind the default `Array.prototype.sort()` on key strings (JS compares
code-unit sequences; on the payload keys that occur here this agrees
with code-point order). -/
def charListLt : List Char → List Char → Bool
  | [], [] => false
  | [], _ :: _ => true
  | _ :: _, [] => false
  | c :: cs, d :: ds => if c < d then true else if d < c then false else charListLt cs ds

/-- Strict order on key strings. -/
def strLt (a b : String) : Bool := charListLt a.data b.data

/-- Stable insertion of a field into a key-sorted field list, comparing
keys only (the comparison backing `Object.keys(value).sort()`). -/
def keyInsert {α : Type} (p : String × α) : List (String × α) → List (String × α)
  | [] => [p]
  | q :: qs => if strLt p.1 q.1 then p :: q :: qs else q :: keyInsert p qs

/-- Stable sort of an object's fields by key, the effect of
`Object.keys(value).sort()` on the field list of a JS object. -/
def keySort {α : Type} : List (String × α) → List (String × α)
  | [] => []
  | p :: ps => keyInsert p (keySort ps)

mutual

/-- Boolean equality on `JsValue` (structural). -/
def beqV : JsValue → JsValue → Bool
  | .undef, .undef => true
  | .null, .null => true
  | .boolean a, .boolean b => a == b
  | .num a, .num b => a == b
  | .str a, .str b => a == b
  | .arr xs, .arr ys => beqVL xs ys
  | .obj fs, .obj gs => beqVF fs gs
  | _, _ => false

/-- Boolean equality on lists of `JsValue`. -/
def beqVL : List JsValue → List JsValue → Bool
  | [], [] => true
  | x :: xs, y :: ys => beqV x y && beqVL xs ys
  | _, _ => false

/-- Boolean equality on field lists. -/
def beqVF : List (String × JsValue) → List (String × JsValue) → Bool
  | [], [] => true
  | (k, v) :: fs, (l, w) :: gs => k == l && beqV v w && beqVF fs gs
  | _, _ => false

end

mutual

theorem eq_of_beqV : ∀ a b, beqV a b = true → a = b
  | .undef, .undef, _ => rfl
  | .null, .null, _ => rfl
  | .boolean a, .boolean b, h => by simpa [beqV] using h
  | .num a, .num b, h => by simpa [beqV] using h
  | .str a, .str b, h => by simpa [beqV] using h
  | .arr xs, .arr ys, h => by
    simp only [beqV] at h
    exact congrArg JsValue.arr (eq_of_beqVL xs ys h)
  | .obj fs, .obj gs, h => by
    simp only [beqV] at h
    exact congrArg JsValue.obj (eq_of_beqVF fs gs h)
  | .undef, .null, h => by simp [beqV] at h
  | .undef, .boolean _, h => by simp [beqV] at h
  | .undef, .num _, h => by simp [beqV] at h
  | .undef, .str _, h => by simp [beqV] at h
  | .undef, .arr _, h => by simp [beqV] at h
  | .undef, .obj _, h => by simp [beqV] at h
  | .null, .undef, h => by simp [beqV] at h
  | .null, .boolean _, h => by simp [beqV] at h
  | .null, .num _, h => by simp [beqV] at h
  | .null, .str _, h => by simp [beqV] at h
  | .null, .arr _, h => by simp [beqV] at h
  | .null, .obj _, h => by simp [beqV] at h
  | .boolean _, .undef, h => by simp [beqV] at h
  | .boolean _, .null, h => by simp [beqV] at h
  | .boolean _, .num _, h => by simp [beqV] at h
  | .boolean _, .str _, h => by simp [beqV] at h
  | .boolean _, .arr _, h => by simp [beqV] at h
  | .boolean _, .obj _, h => by simp [beqV] at h
  | .num _, .undef, h => by simp [beqV] at h
  | .num _, .null, h => by simp [beqV] at h
  | .num _, .boolean _, h => by simp [beqV] at h
  | .num _, .str _, h => by simp [beqV] at h
  | .num _, .arr _, h => by simp [beqV] at h
  | .num _, .obj _, h => by simp [beqV] at h
  | .str _, .undef, h => by simp [beqV] at h
  | .str _, .null, h => by simp [beqV] at h
  | .str _, .boolean _, h => by simp [beqV] at h
  | .str _, .num _, h => by simp [beqV] at h
  | .str _, .arr _, h => by simp [beqV] at h
  | .str _, .obj _, h => by simp [beqV] at h
  | .arr _, .undef, h => by simp [beqV] at h
  | .arr _, .null, h => by simp [beqV] at h
  | .arr _, .boolean _, h => by simp [beqV] at h
  | .arr _, .num _, h => by simp [beqV] at h
  | .arr _, .str _, h => by simp [beqV] at h
  | .arr _, .obj _, h => by simp [beqV] at h
  | .obj _, .undef, h => by simp [beqV] at h
  | .obj _, .null, h => by simp [beqV] at h
  | .obj _, .boolean _, h => by simp [beqV] at h
  | .obj _, .num _, h => by simp [beqV] at h
  | .obj _, .str _, h => by simp [beqV] at h
  | .obj _, .arr _, h => by simp [beqV] at h

theorem eq_of_beqVL : ∀ xs ys, beqVL xs ys = true → xs = ys
  | [], [], _ => rfl
  | [], _ :: _, h => by simp [beqVL] at h
  | _ :: _, [], h => by simp [beqVL] at h
  | x :: xs, y :: ys, h => by
    simp only [beqVL, Bool.and_eq_true] at h
    rw [eq_of_beqV x y h.1, eq_of_beqVL xs ys h.2]

theorem eq_of_beqVF : ∀ fs gs, beqVF fs gs = true → fs = gs
  | [], [], _ => rfl
  | [], _ :: _, h => by simp [beqVF] at h
  | _ :: _, [], h => by simp [beqVF] at h
  | (k, v) :: fs, (l, w) :: gs, h => by
    simp only [beqVF, Bool.and_eq_true] at h
    have hk : k = l := by simpa using h.1.1
    rw [hk, eq_of_beqV v w h.1.2, eq_of_beqVF fs gs h.2]

end

mutual

theorem beqV_refl : ∀ a, beqV a a = true
  | .undef => rfl
  | .null => rfl
  | .boolean _ => by simp [beqV]
  | .num _ => by simp [beqV]
  | .str _ => by simp [beqV]
  | .arr xs => by simpa [beqV] using beqVL_refl xs
  | .obj fs => by simpa [beqV] using beqVF_refl fs

theorem beqVL_refl : ∀ xs, beqVL xs xs = true
  | [] => rfl
  | x :: xs => by simp [beqVL, beqV_refl x, beqVL_refl xs]

theorem beqVF_refl : ∀ fs, beqVF fs fs = true
  | [] => rfl
  | (k, v) :: fs => by simp [beqVF, beqV_refl v, beqVF_refl fs]

end

instance : DecidableEq JsValue := fun a b =>
  if h : beqV a b = true then .isTrue (eq_of_beqV a b h)
  else .isFalse (fun he => h (he ▸ beqV_refl a))

mutual

/-- Model of `sortValue` from `hatx-service.ts`: scalars are returned
as-is, arrays are canonicalized elementwise, and objects have their keys
sorted lexicographically, `undefined`-valued fields dropped, and retained
values canonicalized recursively.  The source sorts the keys before the
drop-and-recurse loop; here the loop (`sortFields`) runs first and the
stable key sort is applied to its output, which is the same function —
`sortFields_keySort` below certifies the interchange. -/
def sortValue : JsValue → JsValue
  | .undef => .undef
  | .null => .null
  | .boolean b => .boolean b
  | .num n => .num n
  | .str s => .str s
  | .arr xs => .arr (sortList xs)
  | .obj fs => .obj (keySort (sortFields fs))

/-- Elementwise canonicalization of an array (`value.map(sortValue)`). -/
def sortList : List JsValue → List JsValue
  | [] => []
  | x :: xs => sortValue x :: sortList xs

/-- The field loop of `sortValue`: skip `undefined`-valued fields,
canonicalize the retained values. -/
def sortFields : List (String × JsValue) → List (String × JsValue)
  | [] => []
  | (k, v) :: fs =>
    match v with
    | .undef => sortFields fs
    | v => (k, sortValue v) :: sortFields fs

end

/-! ## The JSON serializer (`JSON.stringify`, modelled)

`JSON.stringify` is the JavaScript builtin the source feeds with the
canonicalized payload; it is modelled character-for-character for the
value grammar that occurs here: `undefined` is not representable (the
call returns JS `undefined`, embedded as `none`), `undefined` inside an
array serializes as `null`, object fields whose value is not
representable are skipped, strings are quoted with the standard JSON
escapes, and integers print in decimal. -/

/-- The decimal digit characters. -/
def digitChar (n : Nat) : Char :=
  match n with
  | 0 => '0' | 1 => '1' | 2 => '2' | 3 => '3' | 4 => '4'
  | 5 => '5' | 6 => '6' | 7 => '7' | 8 => '8' | _ => '9'

/-- Fuel-indexed decimal printer for naturals; `natChars` supplies fuel
`n`, which always suffices, so the fuel never runs out. -/
def natCharsAux (fuel : Nat) (n : Nat) : List Char :=
  match fuel with
  | 0 => [digitChar (n % 10)]
  | fuel + 1 =>
    if n < 10 then [digitChar n] else natCharsAux fuel (n / 10) ++ [digitChar (n % 10)]

/-- Decimal representation of a natural number, most significant digit
first and no leading zero (`['0']` for zero). -/
def natChars (n : Nat) : List Char := natCharsAux n n

/-- Decimal representation of an integer, as `String(n)` / JSON renders
it. -/
def intChars (i : Int) : List Char :=
  if i < 0 then '-' :: natChars i.natAbs else natChars i.toNat

/-- Lowercase hexadecimal digit. -/
def hexDigit (n : Nat) : Char :=
  match n with
  | 10 => 'a' | 11 => 'b' | 12 => 'c' | 13 => 'd' | 14 => 'e' | 15 => 'f'
  | n => digitChar n

/-- JSON escape of one character inside a quoted string: `"` and `\`
get a backslash, control characters get their short escape or a
`\u00XX` escape, everything else is emitted as-is. -/
def escapeChar (c : Char) : List Char :=
  if c = '"' then ['\\', '"']
  else if c = '\\' then ['\\', '\\']
  else if c.toNat < 0x20 then
    match c with
    | '\x08' => ['\\', 'b']
    | '\t' => ['\\', 't']
    | '\n' => ['\\', 'n']
    | '\x0c' => ['\\', 'f']
    | '\r' => ['\\', 'r']
    | c => ['\\', 'u', '0', '0', hexDigit (c.toNat / 16), hexDigit (c.toNat % 16)]
  else [c]

/-- JSON escape of a character sequence. -/
def escapeData (l : List Char) : List Char := (l.map escapeChar).flatten

/-- A JSON quoted string literal for `s`. -/
def quoteChars (s : String) : List Char := '"' :: escapeData s.data ++ ['"']

/-- The characters of `null`, used for unrepresentable array elements. -/
def nullChars : List Char := ['n', 'u', 'l', 'l']

mutual

/-- `JSON.stringify` on a single value, as a character list; `none` for
values the format cannot represent (`undefined`). -/
def emitVal : JsValue → Option (List Char)
  | .undef => none
  | .null => some nullChars
  | .boolean true => some ['t', 'r', 'u', 'e']
  | .boolean false => some ['f', 'a', 'l', 's', 'e']
  | .num n => some (intChars n)
  | .str s => some (quoteChars s)
  | .arr xs => some ('[' :: emitArr xs ++ [']'])
  | .obj fs => some ('{' :: emitObj fs ++ ['}'])

/-- Array body: comma-joined elements, unrepresentable elements as
`null`. -/
def emitArr : List JsValue → List Char
  | [] => []
  | [x] => (emitVal x).getD nullChars
  | x :: xs => (emitVal x).getD nullChars ++ ',' :: emitArr xs

/-- Object body: comma-joined `"key":value` fields, fields with
unrepresentable values skipped. -/
def emitObj : List (String × JsValue) → List Char
  | [] => []
  | (k, v) :: fs =>
    match emitVal v with
    | none => emitObj fs
    | some ev =>
      match emitObj fs with
      | [] => quoteChars k ++ ':' :: ev
      | rest => quoteChars k ++ ':' :: ev ++ ',' :: rest

end

/-- `JSON.stringify` as the source consumes it: a `String`, or `none`
when the argument is not representable. -/
def stringifyJson (v : JsValue) : Option String := (emitVal v).map List.asString

/-- Model of `stableSerialize` from `hatx-service.ts`:
`JSON.stringify(sortValue(payload)) ?? 'undefined'`. -/
def stableSerialize (payload : JsValue) : String :=
  match stringifyJson (sortValue payload) with
  | some s => s
  | none => "undefined"

/-! ## The cache pools (`lru-cache` dependency, modelled)

The service stores promises in two `LRUCache<string, Promise<unknown>>`
instances.  The library behavior the service relies on is modelled:
entries listed most-recently-used first, `get` returning `undefined` for
a missing or stale entry (deleting a stale one) and promoting a fresh
hit, `set` inserting or replacing as most-recent with a fresh insertion
time and evicting from the least-recently-used end beyond `max`, and
staleness meaning the entry's age strictly exceeds a non-zero `ttl`
(`lru-cache` computes `now - start > ttl`). -/

/-- One pool entry: cache key, the promise stored under it, insertion
time. -/
structure LruEntry where
  key : String
  pid : Nat
  start : Nat
deriving DecidableEq

/-- One `LRUCache` instance: capacity, time-to-live, entries in
most-recently-used-first order. -/
structure LruState where
  max : Nat
  ttl : Nat
  entries : List LruEntry
deriving DecidableEq

/-- Staleness check of `lru-cache`: a non-zero ttl strictly exceeded by
the entry's age. -/
def LruState.isStale (c : LruState) (now : Nat) (e : LruEntry) : Bool :=
  c.ttl != 0 && decide (c.ttl < now - e.start)

/-- `cache.get(key)`: `undefined` on a miss; a stale entry counts as
absent and is disposed; a fresh hit is promoted to most-recent. -/
def LruState.get (c : LruState) (k : String) (now : Nat) : Option Nat × LruState :=
  match c.entries.find? (fun e => e.key == k) with
  | none => (none, c)
  | some e =>
    if c.isStale now e then
      (none, { c with entries := c.entries.filter (fun e2 => e2.key != k) })
    else
      (some e.pid, { c with entries := e :: c.entries.filter (fun e2 => e2.key != k) })

/-- `cache.set(key, v)`: insert or replace as most-recent with insertion
time `now`, evicting from the least-recently-used end past `max`. -/
def LruState.set (c : LruState) (k : String) (p : Nat) (now : Nat) : LruState :=
  { c with entries := (⟨k, p, now⟩ :: c.entries.filter (fun e => e.key != k)).take c.max }

/-- `cache.delete(key)`. -/
def LruState.delete (c : LruState) (k : String) : LruState :=
  { c with entries := c.entries.filter (fun e => e.key != k) }

/-! ## The service state and `cacheRequest`

Promises are entries of an explicit heap (`promises`, addressed by
index); a factory invocation appends its key to `invocations` and
allocates a fresh pending promise.  `cleanup` records the `.catch`
handler `cacheRequest` attaches on a miss: the pool and key to delete if
the computation rejects. -/

/-- A promise: pending, resolved with a value, or rejected with an
error. -/
inductive PromiseState (V E : Type) where
  | pending
  | resolved (v : V)
  | rejected (e : E)
deriving DecidableEq

/-- Which of the two pool fields of the service a request uses. -/
inductive PoolSel where
  | general
  | serological
deriving DecidableEq

/-- A promise heap entry: its state and the attached failure cleanup
(pool and key to deregister on rejection), if any. -/
structure PromiseRec (V E : Type) where
  state : PromiseState V E
  cleanup : Option (PoolSel × String)
deriving DecidableEq

/-- The cache-relevant state of one `HatxService` instance: the two
pools (`null` when caching is disabled), the promise heap, and the log
of factory invocations (transport calls), oldest first. -/
structure HatxState (V E : Type) where
  cache : Option LruState
  serologicalCache : Option LruState
  promises : List (PromiseRec V E)
  invocations : List String
deriving DecidableEq

/-- The pool field named by a selector. -/
def HatxState.pool {V E : Type} (s : HatxState V E) : PoolSel → Option LruState
  | .general => s.cache
  | .serological => s.serologicalCache

/-- Writing back the pool field named by a selector. -/
def HatxState.setPool {V E : Type} (s : HatxState V E) :
    PoolSel → Option LruState → HatxState V E
  | .general, c => { s with cache := c }
  | .serological, c => { s with serologicalCache := c }

/-- Model of `cacheRequest(key, factory, cache)` from `hatx-service.ts`:
without a cache, invoke the factory and return its promise (no cleanup
attached); with a cache, return a live entry's stored promise, else
invoke the factory, attach the `.catch` cleanup, register the pending
promise under `key`, and return it.  Returns the promise id handed to
the caller. -/
def cacheRequest {V E : Type} (sel : PoolSel) (key : String) (now : Nat)
    (s : HatxState V E) : Nat × HatxState V E :=
  match s.pool sel with
  | none =>
    (s.promises.length,
     { s with
         promises := s.promises ++ [(⟨.pending, none⟩ : PromiseRec V E)]
         invocations := s.invocations ++ [key] })
  | some c =>
    match c.get key now with
    | (some p, c2) => (p, s.setPool sel (some c2))
    | (none, c2) =>
      let p := s.promises.length
      let s2 := { s with
                    promises := s.promises ++ [(⟨.pending, some (sel, key)⟩ : PromiseRec V E)]
                    invocations := s.invocations ++ [key] }
      (p, s2.setPool sel (some (c2.set key p now)))

/-- Settlement of the transport call backing promise `p`.  On success
the promise resolves; on failure the `.catch` handler attached by
`cacheRequest` deletes the registered key from its pool and the
rejection is recorded, so every holder of `p` observes the failure.
Settling a promise that is not pending does nothing. -/
def settle {V E : Type} (p : Nat) (outcome : Except E V) (s : HatxState V E) :
    HatxState V E :=
  match s.promises[p]? with
  | none => s
  | some r =>
    match r.state with
    | .pending =>
      let st : PromiseState V E := match outcome with
        | .ok v => PromiseState.resolved v
        | .error e => PromiseState.rejected e
      let s2 := { s with promises := s.promises.set p ⟨st, r.cleanup⟩ }
      match outcome, r.cleanup with
      | .error _, some (sel, k) =>
        match s2.pool sel with
        | some c => s2.setPool sel (some (c.delete k))
        | none => s2
      | _, _ => s2
    | _ => s

/-! ## Constructor and facade operations -/

def DEFAULT_CACHE_MAX_ENTRIES : Nat := 1000

def DEFAULT_CACHE_TTL : Nat := 1000 * 60 * 60

def DEFAULT_SEROLOGICAL_TTL : Nat := 1000 * 60 * 15

/-- The resolved cache options (`ResolvedCacheOptions` in the source). -/
structure ResolvedCacheOptions where
  max : Nat
  ttl : Nat
  serologicalTtl : Nat
deriving DecidableEq

/-- The constructor's `cache` option: absent, a boolean, or an
`HatxServiceCacheOptions` object with optional fields. -/
inductive CacheConfig where
  | undefinedCfg
  | boolCfg (b : Bool)
  | opts (max ttl serologicalTtl : Option Nat)
deriving DecidableEq

/-- Model of `resolveCacheOptions` from `hatx-service.ts`. -/
def resolveCacheOptions : CacheConfig → Option ResolvedCacheOptions
  | .boolCfg false => none
  | .boolCfg true =>
    some ⟨DEFAULT_CACHE_MAX_ENTRIES, DEFAULT_CACHE_TTL, DEFAULT_SEROLOGICAL_TTL⟩
  | .undefinedCfg =>
    some ⟨DEFAULT_CACHE_MAX_ENTRIES, DEFAULT_CACHE_TTL, DEFAULT_SEROLOGICAL_TTL⟩
  | .opts m t st =>
    some ⟨m.getD DEFAULT_CACHE_MAX_ENTRIES, t.getD DEFAULT_CACHE_TTL,
          st.getD (t.getD DEFAULT_SEROLOGICAL_TTL)⟩

/-- The cache-related part of the `HatxService` constructor: either both
pools are created, sharing the single `max` and carrying their
respective ttls, or both are `null`. -/
def mkHatxState (V E : Type) (cfg : CacheConfig) : HatxState V E :=
  match resolveCacheOptions cfg with
  | some o =>
    { cache := some ⟨o.max, o.ttl, []⟩
      serologicalCache := some ⟨o.max, o.serologicalTtl, []⟩
      promises := []
      invocations := [] }
  | none =>
    { cache := none, serologicalCache := none, promises := [], invocations := [] }

/-- Per-call options of the general operations. -/
structure RequestOptions where
  refresh : Option Bool := none
  refreshData : Option Bool := none
deriving DecidableEq

/-- Per-call options of `getArdReducedByAllele`. -/
structure ArdReduceOptions where
  group : Option String := none
  refresh : Option Bool := none
  refreshData : Option Bool := none
deriving DecidableEq

/-- The message `assertRequiredString` throws with (the spec's
ValidationError for identifier inputs). -/
def requiredStringMsg (field : String) : String :=
  "Expected a non-empty value for " ++ field ++ "."

/-- The message `assertArray` throws with (the spec's ValidationError
for sequence inputs). -/
def requiredArrayMsg (field : String) : String :=
  "Expected " ++ field ++ " to be a non-empty array."

/-- The whitespace characters `String.prototype.trim` strips (the ASCII
ones; the payload identifiers contain no exotic Unicode spaces). -/
def jsWhitespace (c : Char) : Bool :=
  c == ' ' || c == '\t' || c == '\n' || c == '\r' || c == '\x0b' || c == '\x0c'

/-- `value.trim()`: strip leading and trailing whitespace. -/
def jsTrim (s : String) : String :=
  ⟨((s.data.dropWhile jsWhitespace).reverse.dropWhile jsWhitespace).reverse⟩

/-- The failing condition of `assertRequiredString`:
`!value || !value.trim()` (empty, or empty after trimming). -/
def requiredStringFails (value : String) : Bool :=
  value == "" || jsTrim value == ""

instance {ε α : Type} [DecidableEq ε] [DecidableEq α] : DecidableEq (Except ε α) :=
  fun x y =>
  match x, y with
  | .ok a, .ok b => if h : a = b then .isTrue (by rw [h]) else .isFalse (by simp [h])
  | .error a, .error b => if h : a = b then .isTrue (by rw [h]) else .isFalse (by simp [h])
  | .ok _, .error _ => .isFalse (by simp)
  | .error _, .ok _ => .isFalse (by simp)

/-- The pool a serological operation uses:
`this.serologicalCache ?? this.cache`. -/
def serologicalSel {V E : Type} (s : HatxState V E) : PoolSel :=
  if s.serologicalCache.isSome then .serological else .general

/-- An optional string as the JS value placed in a payload field. -/
def optStrJs : Option String → JsValue
  | none => .undef
  | some s => .str s

/-- `getBeadByAllele` at the caching layer: validate the identifier,
then resolve `bead:get:<allele>` in the general pool.  The per-call
options only shape the transport request (a `refresh` query parameter
and a `Refresh-Data` header) and play no role in the caching decision. -/
def getBeadByAllele {V E : Type} (allele : String) (options : RequestOptions)
    (now : Nat) (s : HatxState V E) : Except String Nat × HatxState V E :=
  if requiredStringFails allele then (.error (requiredStringMsg "allele"), s)
  else
    let _ := options
    let r := cacheRequest .general ("bead:get:" ++ allele) now s
    (.ok r.1, r.2)

/-- The `BeadQuery` / `SerologicalQuery` payload `{ alleles }` as a JS
value. -/
def allelesPayload (alleles : List String) : JsValue :=
  .obj [("alleles", .arr (alleles.map .str))]

/-- `queryBeads` at the caching layer: validate the sequence, then
resolve `bead:query:<stableSerialize payload>` in the general pool. -/
def queryBeads {V E : Type} (alleles : List String) (now : Nat)
    (s : HatxState V E) : Except String Nat × HatxState V E :=
  if alleles.isEmpty then (.error (requiredArrayMsg "alleles"), s)
  else
    let r := cacheRequest .general ("bead:query:" ++ stableSerialize (allelesPayload alleles)) now s
    (.ok r.1, r.2)

/-- `getSerologicalByAllele` at the caching layer: validate, then
resolve `serological:get:<allele>` in `serologicalCache ?? cache`. -/
def getSerologicalByAllele {V E : Type} (allele : String) (options : RequestOptions)
    (now : Nat) (s : HatxState V E) : Except String Nat × HatxState V E :=
  if requiredStringFails allele then (.error (requiredStringMsg "allele"), s)
  else
    let _ := options
    let r := cacheRequest (serologicalSel s) ("serological:get:" ++ allele) now s
    (.ok r.1, r.2)

/-- `querySerological` at the caching layer: validate the sequence, then
resolve `serological:query:<stableSerialize payload>` in
`serologicalCache ?? cache`. -/
def querySerological {V E : Type} (alleles : List String) (now : Nat)
    (s : HatxState V E) : Except String Nat × HatxState V E :=
  if alleles.isEmpty then (.error (requiredArrayMsg "alleles"), s)
  else
    let r := cacheRequest (serologicalSel s)
      ("serological:query:" ++ stableSerialize (allelesPayload alleles)) now s
    (.ok r.1, r.2)

/-- The cache key of `getArdReducedByAllele`. -/
def ardReduceKey (allele : String) (group : Option String) : String :=
  "ard:reduce:get:" ++ allele ++ ":" ++ stableSerialize (.obj [("group", optStrJs group)])

/-- `getArdReducedByAllele` at the caching layer: validate, then — the
one bypass in the source — if `options.refresh === true ||
options.refreshData === true` invoke the factory directly (no pool is
read or written, no cleanup registered since the raw promise is
returned); otherwise resolve the key in the general pool. -/
def getArdReducedByAllele {V E : Type} (allele : String) (options : ArdReduceOptions)
    (now : Nat) (s : HatxState V E) : Except String Nat × HatxState V E :=
  if requiredStringFails allele then (.error (requiredStringMsg "allele"), s)
  else if options.refresh == some true || options.refreshData == some true then
    (.ok s.promises.length,
     { s with
         promises := s.promises ++ [(⟨.pending, none⟩ : PromiseRec V E)]
         invocations := s.invocations ++ [ardReduceKey allele options.group] })
  else
    let r := cacheRequest .general (ardReduceKey allele options.group) now s
    (.ok r.1, r.2)

/-- Issue one cached request per key, left to right (the populate step
of the capacity scenario). -/
def populate {V E : Type} (keys : List String) (now : Nat) (s : HatxState V E) :
    HatxState V E :=
  keys.foldl (fun s2 k => (cacheRequest .general k now s2).2) s

/-! ## Predicates on payloads, and structural equality up to field order

`noDupKeyStrings`/`wfKeys*` state that every object level has pairwise
distinct keys (true of every JS object value).  `preClean*` describes
the payloads the typed facade builds: strings need no JSON escaping and
arrays carry no `undefined` elements.  `clean*` is the corresponding
property of canonical (post-`sortValue`) values, where `undefined` no
longer occurs at all.  `ObjPermEquiv` is the spec's relation: structural
equality up to recursive reordering of object fields, with
`undefined`-valued fields disregarded. -/

/-- Pairwise distinct key strings at one object level. -/
def noDupKeyStrings : List (String × JsValue) → Bool
  | [] => true
  | (k, _) :: fs => fs.all (fun kv => kv.1 != k) && noDupKeyStrings fs

mutual

/-- Every object level has pairwise distinct keys. -/
def wfKeysV : JsValue → Bool
  | .arr xs => wfKeysL xs
  | .obj fs => noDupKeyStrings fs && wfKeysF fs
  | _ => true

/-- `wfKeysV` over array elements. -/
def wfKeysL : List JsValue → Bool
  | [] => true
  | x :: xs => wfKeysV x && wfKeysL xs

/-- `wfKeysV` over field values. -/
def wfKeysF : List (String × JsValue) → Bool
  | [] => true
  | (_, v) :: fs => wfKeysV v && wfKeysF fs

end

/-- A character JSON emits verbatim inside a quoted string. -/
def plainChar (c : Char) : Bool :=
  c != '"' && c != '\\' && decide (0x20 ≤ c.toNat)

/-- A string JSON emits verbatim (no escapes needed). -/
def plainString (s : String) : Bool := s.data.all plainChar

mutual

/-- Payloads as the typed facade builds them: plain strings and keys,
and no `undefined` array elements (`undefined` may appear as an object
field value, where canonicalization drops it). -/
def preCleanV : JsValue → Bool
  | .undef => true
  | .null => true
  | .boolean _ => true
  | .num _ => true
  | .str s => plainString s
  | .arr xs => preCleanL xs
  | .obj fs => preCleanF fs

/-- `preCleanV` over array elements, which must not be `undefined`. -/
def preCleanL : List JsValue → Bool
  | [] => true
  | x :: xs => !x.isUndef && preCleanV x && preCleanL xs

/-- `preCleanV` over fields. -/
def preCleanF : List (String × JsValue) → Bool
  | [] => true
  | (k, v) :: fs => plainString k && preCleanV v && preCleanF fs

end

mutual

/-- Canonical values the serializer represents exactly: no `undefined`
anywhere, plain strings and keys. -/
def cleanV : JsValue → Bool
  | .undef => false
  | .null => true
  | .boolean _ => true
  | .num _ => true
  | .str s => plainString s
  | .arr xs => cleanL xs
  | .obj fs => cleanF fs

/-- `cleanV` over array elements. -/
def cleanL : List JsValue → Bool
  | [] => true
  | x :: xs => cleanV x && cleanL xs

/-- `cleanV` over fields. -/
def cleanF : List (String × JsValue) → Bool
  | [] => true
  | (k, v) :: fs => plainString k && cleanV v && cleanF fs

end

/-- The fields of an object that canonicalization retains (those whose
value is not `undefined`). -/
def dropUndefFields (fs : List (String × JsValue)) : List (String × JsValue) :=
  fs.filter (fun kv => !kv.2.isUndef)

/-- Canonicalization of the values of a field list. -/
def mapVals (l : List (String × JsValue)) : List (String × JsValue) :=
  l.map (fun kv => (kv.1, sortValue kv.2))

/-- Classification of a character as the possible first character of a
JSON serialization: `null`, `true`, `false`, a number, a string, an
array, an object, or none of these. -/
def startClass (c : Char) : Nat :=
  if c = 'n' then 0 else if c = 't' ∨ c = 'f' then 1
  else if c.isDigit || c = '-' then 2 else if c = '"' then 3
  else if c = '[' then 4 else if c = '{' then 5 else 6

/-- The start class a value's serialization carries. -/
def classOf : JsValue → Nat
  | .null => 0
  | .boolean _ => 1
  | .num _ => 2
  | .str _ => 3
  | .arr _ => 4
  | .obj _ => 5
  | .undef => 6

/-- A continuation that cannot extend a serialized value: empty, or
starting with a separator or a closing bracket. -/
def Closer (r : List Char) : Prop :=
  r = [] ∨ ∃ c t, r = c :: t ∧ (c = ',' ∨ c = ']' ∨ c = '}')

/-- Structural equality up to object-key insertion order, recursive, and
with absent (`undefined`-valued) fields disregarded: the equivalence the
spec requires the key builder to respect. -/
inductive ObjPermEquiv : JsValue → JsValue → Prop where
  | undef : ObjPermEquiv .undef .undef
  | null : ObjPermEquiv .null .null
  | boolean (b : Bool) : ObjPermEquiv (.boolean b) (.boolean b)
  | num (n : Int) : ObjPermEquiv (.num n) (.num n)
  | str (s : String) : ObjPermEquiv (.str s) (.str s)
  | arr {xs ys : List JsValue} :
      List.Forall₂ ObjPermEquiv xs ys → ObjPermEquiv (.arr xs) (.arr ys)
  | obj {fs gs l : List (String × JsValue)} :
      (dropUndefFields fs).map Prod.fst = l.map Prod.fst →
      List.Forall₂ ObjPermEquiv ((dropUndefFields fs).map Prod.snd) (l.map Prod.snd) →
      l.Perm (dropUndefFields gs) →
      ObjPermEquiv (.obj fs) (.obj gs)

/-! ## Helper lemmas on the state model -/

@[simp] theorem pool_setPool_self {V E : Type} (s : HatxState V E) (sel : PoolSel)
    (c : Option LruState) : (s.setPool sel c).pool sel = c := by
  cases sel <;> rfl

@[simp] theorem setPool_promises {V E : Type} (s : HatxState V E) (sel : PoolSel)
    (c : Option LruState) : (s.setPool sel c).promises = s.promises := by
  cases sel <;> rfl

@[simp] theorem setPool_invocations {V E : Type} (s : HatxState V E) (sel : PoolSel)
    (c : Option LruState) : (s.setPool sel c).invocations = s.invocations := by
  cases sel <;> rfl

@[simp] theorem setPool_general_serologicalCache {V E : Type} (s : HatxState V E)
    (c : Option LruState) : (s.setPool .general c).serologicalCache = s.serologicalCache := rfl

@[simp] theorem setPool_serological_cache {V E : Type} (s : HatxState V E)
    (c : Option LruState) : (s.setPool .serological c).cache = s.cache := rfl

@[simp] theorem get_snd_max (c : LruState) (k : String) (now : Nat) :
    ((c.get k now).2).max = c.max := by
  unfold LruState.get
  cases c.entries.find? (fun e => e.key == k)
  · rfl
  · simp only
    split <;> rfl

@[simp] theorem get_snd_ttl (c : LruState) (k : String) (now : Nat) :
    ((c.get k now).2).ttl = c.ttl := by
  unfold LruState.get
  cases c.entries.find? (fun e => e.key == k)
  · rfl
  · simp only
    split <;> rfl

@[simp] theorem set_max (c : LruState) (k : String) (p now : Nat) :
    (c.set k p now).max = c.max := rfl

@[simp] theorem set_ttl (c : LruState) (k : String) (p now : Nat) :
    (c.set k p now).ttl = c.ttl := rfl

@[simp] theorem pool_with_promises {V E : Type} (st : HatxState V E)
    (P : List (PromiseRec V E)) (sel : PoolSel) :
    ({ st with promises := P } : HatxState V E).pool sel = st.pool sel := by
  cases sel <;> rfl

@[simp] theorem pool_update_fields {V E : Type} (st : HatxState V E)
    (P : List (PromiseRec V E)) (I : List String) (sel : PoolSel) :
    ({ cache := st.cache, serologicalCache := st.serologicalCache,
       promises := P, invocations := I } : HatxState V E).pool sel = st.pool sel := by
  cases sel <;> rfl

theorem getElem?_append_length {α : Type} (l : List α) (a : α) :
    (l ++ [a])[l.length]? = some a := by
  rw [List.getElem?_append_right (Nat.le_refl _)]
  simp

theorem set_append_length {α : Type} (l : List α) (a b : α) :
    (l ++ [a]).set l.length b = l ++ [b] := by
  induction l with
  | nil => rfl
  | cons x xs ih => simp [List.set, ih]

theorem find?_key_filter_ne (l : List LruEntry) (k : String) :
    (l.filter (fun e => e.key != k)).find? (fun e => e.key == k) = none := by
  rw [List.find?_eq_none]
  intro e he
  simpa using (List.mem_filter.mp he).2

/-- Unfolding of `cacheRequest` on a configured pool and a miss. -/
theorem cacheRequest_miss {V E : Type} (sel : PoolSel) (key : String) (now : Nat)
    (s : HatxState V E) (c c2 : LruState)
    (hp : s.pool sel = some c) (hg : c.get key now = (none, c2)) :
    cacheRequest sel key now s =
      (s.promises.length,
       ({ s with
            promises := s.promises ++ [(⟨.pending, some (sel, key)⟩ : PromiseRec V E)]
            invocations := s.invocations ++ [key] }).setPool sel
         (some (c2.set key s.promises.length now))) := by
  simp only [cacheRequest, hp, hg]

/-- Unfolding of `cacheRequest` on a configured pool and a live hit. -/
theorem cacheRequest_hit {V E : Type} (sel : PoolSel) (key : String) (now : Nat)
    (s : HatxState V E) (c c2 : LruState) (p : Nat)
    (hp : s.pool sel = some c) (hg : c.get key now = (some p, c2)) :
    cacheRequest sel key now s = (p, s.setPool sel (some c2)) := by
  simp only [cacheRequest, hp, hg]

/-- Unfolding of `cacheRequest` with caching disabled. -/
theorem cacheRequest_nocache {V E : Type} (sel : PoolSel) (key : String) (now : Nat)
    (s : HatxState V E) (hp : s.pool sel = none) :
    cacheRequest sel key now s =
      (s.promises.length,
       { s with
           promises := s.promises ++ [(⟨.pending, none⟩ : PromiseRec V E)]
           invocations := s.invocations ++ [key] }) := by
  simp only [cacheRequest, hp]

/-- Unfolding of `settle` on a rejection of a pending promise carrying a
cleanup registration. -/
theorem settle_error_cleanup {V E : Type} (p : Nat) (err : E) (s : HatxState V E)
    (sel : PoolSel) (k : String) (c : LruState)
    (hat : s.promises[p]? = some ⟨.pending, some (sel, k)⟩)
    (hpool : s.pool sel = some c) :
    settle p (.error err) s =
      ({ s with promises := s.promises.set p ⟨.rejected err, some (sel, k)⟩ }).setPool sel
        (some (c.delete k)) := by
  simp only [settle, hat, pool_with_promises, hpool]

/-- Unfolding of `settle` on a resolution of a pending promise. -/
theorem settle_ok {V E : Type} (p : Nat) (v : V) (s : HatxState V E)
    (cl : Option (PoolSel × String))
    (hat : s.promises[p]? = some ⟨.pending, cl⟩) :
    settle p (.ok v) s = { s with promises := s.promises.set p ⟨.resolved v, cl⟩ } := by
  simp only [settle, hat]

/-- A request through the general pool never touches the serological
pool, whatever the key string. -/
theorem cacheRequest_general_serologicalCache {V E : Type} (key : String) (now : Nat)
    (s : HatxState V E) :
    (cacheRequest .general key now s).2.serologicalCache = s.serologicalCache := by
  unfold cacheRequest
  cases hc : s.pool .general with
  | none => rfl
  | some c =>
    cases hg : c.get key now with
    | mk o c2 => cases o <;> simp [hg, HatxState.setPool]

/-- A request through the serological pool never touches the general
pool, whatever the key string. -/
theorem cacheRequest_serological_cache {V E : Type} (key : String) (now : Nat)
    (s : HatxState V E) :
    (cacheRequest .serological key now s).2.cache = s.cache := by
  unfold cacheRequest
  cases hc : s.pool .serological with
  | none => rfl
  | some c =>
    cases hg : c.get key now with
    | mk o c2 => cases o <;> simp [hg, HatxState.setPool]

theorem length_filter_lt {α : Type} (p : α → Bool) :
    ∀ (l : List α) (e : α), e ∈ l → p e = false → (l.filter p).length < l.length := by
  intro l
  induction l with
  | nil => intro e he; cases he
  | cons x xs ih =>
    intro e he hp
    rcases List.mem_cons.mp he with rfl | hmem
    · simp only [List.filter_cons, hp]
      exact Nat.lt_succ_of_le (List.length_filter_le _ _)
    · cases hx : p x with
      | true =>
        simp only [List.filter_cons, hx]
        exact Nat.succ_lt_succ (ih e hmem hp)
      | false =>
        simp only [List.filter_cons, hx]
        exact Nat.lt_succ_of_lt (ih e hmem hp)

theorem take_append_take {α : Type} (m : Nat) (a X : List α) :
    (a ++ X.take m).take m = (a ++ X).take m := by
  rw [List.take_append_eq_append_take, List.take_append_eq_append_take, List.take_take]
  congr 1
  rw [Nat.min_eq_left (Nat.sub_le m _)]

/-- Populating distinct fresh keys through the general pool: the entries
pile up most-recent-first, truncated at capacity; one factory invocation
per key; the serological pool is untouched. -/
theorem populate_entries {V E : Type} (now : Nat) :
    ∀ (ks : List String) (s : HatxState V E) (c : LruState),
      s.cache = some c → ks.Nodup →
      (∀ e ∈ c.entries, e.key ∉ ks) →
      c.entries.length ≤ c.max →
      ∃ nl : List LruEntry,
        nl.map LruEntry.key = ks.reverse ∧
        (populate ks now s).cache =
          some { c with entries := (nl ++ c.entries).take c.max } ∧
        (populate ks now s).invocations = s.invocations ++ ks ∧
        (populate ks now s).serologicalCache = s.serologicalCache := by
  intro ks
  induction ks with
  | nil =>
    intro s c hc _ _ hlen
    refine ⟨[], rfl, ?_, by simp [populate], by simp [populate]⟩
    simp only [populate, List.foldl_nil, hc, List.nil_append,
      List.take_of_length_le hlen]
  | cons k ks ih =>
    intro s c hc hnd hfresh hlen
    have hp : s.pool .general = some c := hc
    have hfind : c.entries.find? (fun e => e.key == k) = none := by
      rw [List.find?_eq_none]
      intro e he
      have : e.key ≠ k := fun h => hfresh e he (by rw [h]; exact List.mem_cons_self _ _)
      simpa using this
    have hg : c.get k now = (none, c) := by
      unfold LruState.get
      rw [hfind]
    have hfilter : c.entries.filter (fun e => e.key != k) = c.entries := by
      rw [List.filter_eq_self]
      intro e he
      have : e.key ≠ k := fun h => hfresh e he (by rw [h]; exact List.mem_cons_self _ _)
      simpa using this
    have hstep : (cacheRequest .general k now s).2 =
        ({ s with
             promises := s.promises ++ [(⟨.pending, some (.general, k)⟩ : PromiseRec V E)]
             invocations := s.invocations ++ [k] }).setPool .general
          (some (c.set k s.promises.length now)) := by
      rw [cacheRequest_miss .general k now s c c hp hg]
    have hset : c.set k s.promises.length now =
        { c with entries := (⟨k, s.promises.length, now⟩ :: c.entries).take c.max } := by
      unfold LruState.set
      rw [hfilter]
    have hnd' := List.nodup_cons.mp hnd
    have hpop : populate (k :: ks) now s = populate ks now (cacheRequest .general k now s).2 := by
      simp [populate]
    obtain ⟨nl', hkeys, hcache, hinv, hsero⟩ :=
      ih ((cacheRequest .general k now s).2)
        { c with entries := (⟨k, s.promises.length, now⟩ :: c.entries).take c.max }
        (by rw [hstep, hset]; rfl)
        hnd'.2
        (by
          intro e he
          simp only at he
          have he' := List.take_subset _ _ he
          rcases List.mem_cons.mp he' with rfl | hmem
          · exact hnd'.1
          · intro hin
            exact hfresh e hmem (List.mem_cons_of_mem _ hin))
        (List.length_take_le _ _)
    refine ⟨nl' ++ [⟨k, s.promises.length, now⟩], ?_, ?_, ?_, ?_⟩
    · simp [hkeys]
    · rw [hpop, hcache]
      simp only
      rw [take_append_take, List.append_cons nl' _ c.entries]
    · rw [hpop, hinv, hstep]
      simp
    · rw [hpop, hsero, hstep]
      simp

/-! ## C1: in-flight deduplication -/

/-- C1: with a configured pool, a first call for `key` that misses
invokes the factory exactly once and registers the pending promise
synchronously; a second call for the same key while that entry is
unexpired returns the very same promise id without invoking the factory
or allocating a new promise, so both callers observe the same eventual
outcome of the one in-flight computation. -/
theorem C1_inflight_dedup {V E : Type} (sel : PoolSel) (key : String) (now1 now2 : Nat)
    (s : HatxState V E) (c : LruState)
    (hp : s.pool sel = some c) (hmax : 1 ≤ c.max)
    (hmiss : (c.get key now1).1 = none)
    (hfresh : c.ttl = 0 ∨ now2 - now1 ≤ c.ttl) :
    (cacheRequest sel key now2 (cacheRequest sel key now1 s).2).1 =
      (cacheRequest sel key now1 s).1 ∧
    (cacheRequest sel key now2 (cacheRequest sel key now1 s).2).2.invocations =
      (cacheRequest sel key now1 s).2.invocations ∧
    (cacheRequest sel key now2 (cacheRequest sel key now1 s).2).2.promises =
      (cacheRequest sel key now1 s).2.promises ∧
    (cacheRequest sel key now1 s).2.invocations = s.invocations ++ [key] ∧
    (cacheRequest sel key now1 s).2.promises =
      s.promises ++ [⟨.pending, some (sel, key)⟩] ∧
    (cacheRequest sel key now1 s).1 = s.promises.length := by
  cases hg : c.get key now1 with
  | mk o c2 =>
  rw [hg] at hmiss
  simp only at hmiss
  subst hmiss
  have hc2max : c2.max = c.max := by
    have := get_snd_max c key now1
    rw [hg] at this
    exact this
  have hc2ttl : c2.ttl = c.ttl := by
    have := get_snd_ttl c key now1
    rw [hg] at this
    exact this
  set p := s.promises.length with hpdef
  have h1 : cacheRequest sel key now1 s =
      (p, ({ s with
               promises := s.promises ++ [(⟨.pending, some (sel, key)⟩ : PromiseRec V E)]
               invocations := s.invocations ++ [key] }).setPool sel
             (some (c2.set key p now1))) := by
    simp only [cacheRequest, hp, hg]
  have hfind : ((c2.set key p now1).entries).find? (fun e => e.key == key) =
      some ⟨key, p, now1⟩ := by
    obtain ⟨mm, hmm⟩ : ∃ mm, c2.max = mm + 1 := ⟨c2.max - 1, by omega⟩
    unfold LruState.set
    simp [hmm, List.find?]
  have hstale : (c2.set key p now1).isStale now2 ⟨key, p, now1⟩ = false := by
    simp only [LruState.isStale, set_ttl, hc2ttl]
    rcases hfresh with h0 | hle
    · simp [h0]
    · simp only [Bool.and_eq_false_iff]
      right
      simpa using Nat.not_lt.mpr hle
  have hget2 : ((c2.set key p now1).get key now2).1 = some p := by
    unfold LruState.get
    rw [hfind]
    simp [hstale]
  rw [h1]
  cases hg2 : (c2.set key p now1).get key now2 with
  | mk o2 c3 =>
  rw [hg2] at hget2
  simp only at hget2
  subst hget2
  have h2 : ∀ s3 : HatxState V E, s3.pool sel = some (c2.set key p now1) →
      cacheRequest sel key now2 s3 = (p, s3.setPool sel (some c3)) := by
    intro s3 hp3
    simp only [cacheRequest, hp3, hg2]
  rw [h2 _ (by simp)]
  simp

/-! ## C2: failures are never cached -/

/-- C2: after a miss registers the pending promise for `key`, a failure
of the underlying computation rejects that shared promise (so every
caller holding it observes the failure) and deletes `key` from the pool
as part of the failure path; a subsequent call for the same key finds no
entry and invokes the factory afresh on a fresh promise. -/
theorem C2_failure_not_cached {V E : Type} (sel : PoolSel) (key : String)
    (now1 now3 : Nat) (s : HatxState V E) (c : LruState) (err : E)
    (hp : s.pool sel = some c)
    (hmiss : (c.get key now1).1 = none) :
    settle (cacheRequest sel key now1 s).1 (.error err)
        (cacheRequest sel key now1 s).2 |>.promises[(cacheRequest sel key now1 s).1]? =
      some ⟨.rejected err, some (sel, key)⟩ ∧
    (∃ c2, (settle (cacheRequest sel key now1 s).1 (.error err)
        (cacheRequest sel key now1 s).2).pool sel = some c2 ∧
      c2.entries.find? (fun e => e.key == key) = none) ∧
    (cacheRequest sel key now3
        (settle (cacheRequest sel key now1 s).1 (.error err)
          (cacheRequest sel key now1 s).2)).2.invocations =
      (settle (cacheRequest sel key now1 s).1 (.error err)
        (cacheRequest sel key now1 s).2).invocations ++ [key] ∧
    (cacheRequest sel key now3
        (settle (cacheRequest sel key now1 s).1 (.error err)
          (cacheRequest sel key now1 s).2)).1 ≠ (cacheRequest sel key now1 s).1 := by
  cases hg : c.get key now1 with
  | mk o c2 =>
  rw [hg] at hmiss
  simp only at hmiss
  subst hmiss
  rw [cacheRequest_miss sel key now1 s c c2 hp hg]
  simp only
  have hS1at : (({ s with
        promises := s.promises ++ [(⟨.pending, some (sel, key)⟩ : PromiseRec V E)]
        invocations := s.invocations ++ [key] } : HatxState V E).setPool sel
        (some (c2.set key s.promises.length now1))).promises[s.promises.length]? =
      some ⟨.pending, some (sel, key)⟩ := by
    simp [getElem?_append_length]
  have hS1pool : (({ s with
        promises := s.promises ++ [(⟨.pending, some (sel, key)⟩ : PromiseRec V E)]
        invocations := s.invocations ++ [key] } : HatxState V E).setPool sel
        (some (c2.set key s.promises.length now1))).pool sel =
      some (c2.set key s.promises.length now1) := by
    simp
  rw [settle_error_cleanup _ err _ sel key _ hS1at hS1pool]
  have hS2prom : ((({ s with
        promises := s.promises ++ [(⟨.pending, some (sel, key)⟩ : PromiseRec V E)]
        invocations := s.invocations ++ [key] } : HatxState V E).setPool sel
        (some (c2.set key s.promises.length now1))).promises.set s.promises.length
        (⟨.rejected err, some (sel, key)⟩ : PromiseRec V E)) =
      s.promises ++ [(⟨.rejected err, some (sel, key)⟩ : PromiseRec V E)] := by
    simp [set_append_length]
  have hdel : (((c2.set key s.promises.length now1).delete key).entries).find?
      (fun e => e.key == key) = none := by
    unfold LruState.delete
    exact find?_key_filter_ne _ _
  have hget3 : ((c2.set key s.promises.length now1).delete key).get key now3 =
      (none, (c2.set key s.promises.length now1).delete key) := by
    unfold LruState.get
    rw [hdel]
  refine ⟨?_, ?_, ?_, ?_⟩
  · simp only [setPool_promises, pool_with_promises]
    rw [set_append_length]
    exact getElem?_append_length _ _
  · refine ⟨(c2.set key s.promises.length now1).delete key, ?_, hdel⟩
    simp
  · rw [cacheRequest_miss sel key now3 _ _ _ (by simp) hget3]
    simp
  · rw [cacheRequest_miss sel key now3 _ _ _ (by simp) hget3]
    simp only [setPool_promises, pool_with_promises, hS2prom]
    simp

theorem C1_inflight_dedup_witness :
    (let s0 := mkHatxState Nat Nat (.opts (some 2) (some 10) none)
     (cacheRequest .general "k" 5 (cacheRequest .general "k" 0 s0).2).1 =
       (cacheRequest .general "k" 0 s0).1 ∧
     (cacheRequest .general "k" 5 (cacheRequest .general "k" 0 s0).2).2.invocations =
       (cacheRequest .general "k" 0 s0).2.invocations ∧
     (cacheRequest .general "k" 5 (cacheRequest .general "k" 0 s0).2).2.promises =
       (cacheRequest .general "k" 0 s0).2.promises ∧
     (cacheRequest .general "k" 0 s0).2.invocations = s0.invocations ++ ["k"] ∧
     (cacheRequest .general "k" 0 s0).2.promises =
       s0.promises ++ [⟨.pending, some (.general, "k")⟩] ∧
     (cacheRequest .general "k" 0 s0).1 = s0.promises.length) :=
  C1_inflight_dedup .general "k" 0 5 (mkHatxState Nat Nat (.opts (some 2) (some 10) none))
    ⟨2, 10, []⟩ (by decide) (by decide) (by decide) (by decide)

theorem C2_failure_not_cached_witness :
    (let s0 := mkHatxState Nat Nat (.opts (some 2) (some 10) none)
     let r1 := cacheRequest .general "k" 0 s0
     let s2 := settle r1.1 (.error 7) r1.2
     s2.promises[r1.1]? = some ⟨.rejected 7, some (.general, "k")⟩ ∧
     (∃ c2, s2.pool .general = some c2 ∧
        c2.entries.find? (fun e => e.key == "k") = none) ∧
     (cacheRequest .general "k" 3 s2).2.invocations = s2.invocations ++ ["k"] ∧
     (cacheRequest .general "k" 3 s2).1 ≠ r1.1) :=
  C2_failure_not_cached .general "k" 0 3 (mkHatxState Nat Nat (.opts (some 2) (some 10) none))
    ⟨2, 10, []⟩ 7 (by decide) (by decide)

/-! ## C3: the TTL window -/

/-- C3 (counterexample): the claim requires a lookup at exactly `T + D`
to trigger a fresh factory invocation, but an entry is stale only once
its age strictly exceeds the ttl, so with `D = 10` an entry inserted at
`T = 0` is still served from the cache at time `10`: the same promise is
returned and no invocation happens. -/
theorem C3_counterexample :
    (let s0 := mkHatxState Nat Nat (.opts (some 5) (some 10) none)
     let r1 := cacheRequest .general "k" 0 s0
     let s2 := settle r1.1 (.ok 42) r1.2
     let r3 := cacheRequest .general "k" 10 s2
     r3.1 = r1.1 ∧ r3.2.invocations = s2.invocations) := by
  decide

/-- C3 (amended): a successful entry inserted at time `T` into a pool
with non-zero ttl `D` is served from the cache — same promise, now
resolved, no factory invocation — for every lookup at time `≤ T + D`,
and every lookup at time `> T + D` misses and triggers a fresh factory
invocation on a fresh promise. -/
theorem C3_ttl_window {V E : Type} (sel : PoolSel) (key : String) (T : Nat)
    (s : HatxState V E) (c : LruState) (v : V)
    (hp : s.pool sel = some c) (hmax : 1 ≤ c.max) (hD : c.ttl ≠ 0)
    (hmiss : (c.get key T).1 = none) :
    (let r1 := cacheRequest sel key T s
     let s2 := settle r1.1 (.ok v) r1.2
     s2.promises[r1.1]? = some ⟨.resolved v, some (sel, key)⟩ ∧
     (∀ t, t ≤ T + c.ttl →
        (cacheRequest sel key t s2).1 = r1.1 ∧
        (cacheRequest sel key t s2).2.invocations = s2.invocations) ∧
     (∀ t, T + c.ttl < t →
        (cacheRequest sel key t s2).2.invocations = s2.invocations ++ [key] ∧
        (cacheRequest sel key t s2).1 = s2.promises.length)) := by
  cases hg : c.get key T with
  | mk o c2 =>
  rw [hg] at hmiss
  simp only at hmiss
  subst hmiss
  have hc2max : c2.max = c.max := by
    have := get_snd_max c key T
    rw [hg] at this
    exact this
  have hc2ttl : c2.ttl = c.ttl := by
    have := get_snd_ttl c key T
    rw [hg] at this
    exact this
  rw [cacheRequest_miss sel key T s c c2 hp hg]
  simp only
  have hS1at : (({ s with
        promises := s.promises ++ [(⟨.pending, some (sel, key)⟩ : PromiseRec V E)]
        invocations := s.invocations ++ [key] } : HatxState V E).setPool sel
        (some (c2.set key s.promises.length T))).promises[s.promises.length]? =
      some ⟨.pending, some (sel, key)⟩ := by
    simp [getElem?_append_length]
  rw [settle_ok _ v _ _ hS1at]
  have hS2prom : ((({ s with
        promises := s.promises ++ [(⟨.pending, some (sel, key)⟩ : PromiseRec V E)]
        invocations := s.invocations ++ [key] } : HatxState V E).setPool sel
        (some (c2.set key s.promises.length T))).promises.set s.promises.length
        (⟨.resolved v, some (sel, key)⟩ : PromiseRec V E)) =
      s.promises ++ [(⟨.resolved v, some (sel, key)⟩ : PromiseRec V E)] := by
    simp [set_append_length]
  have hfind : ((c2.set key s.promises.length T).entries).find? (fun e => e.key == key) =
      some ⟨key, s.promises.length, T⟩ := by
    obtain ⟨mm, hmm⟩ : ∃ mm, c2.max = mm + 1 := ⟨c2.max - 1, by omega⟩
    unfold LruState.set
    simp [hmm, List.find?]
  refine ⟨?_, ?_, ?_⟩
  · simp only [setPool_promises, pool_with_promises]
    rw [set_append_length]
    exact getElem?_append_length _ _
  · intro t ht
    have hstale : (c2.set key s.promises.length T).isStale t ⟨key, s.promises.length, T⟩ =
        false := by
      simp only [LruState.isStale, set_ttl, hc2ttl]
      simp only [Bool.and_eq_false_iff]
      right
      simpa using Nat.not_lt.mpr (by omega : t - T ≤ c.ttl)
    cases hg2 : (c2.set key s.promises.length T).get key t with
    | mk o2 c3 =>
    have ho2 : o2 = some s.promises.length := by
      have : ((c2.set key s.promises.length T).get key t).1 = some s.promises.length := by
        unfold LruState.get
        rw [hfind]
        simp [hstale]
      rw [hg2] at this
      exact this
    subst ho2
    rw [cacheRequest_hit sel key t _ _ _ _ (by simp) hg2]
    simp
  · intro t ht
    have hstale : (c2.set key s.promises.length T).isStale t ⟨key, s.promises.length, T⟩ =
        true := by
      simp only [LruState.isStale, set_ttl, hc2ttl]
      refine Bool.and_eq_true_iff.mpr ⟨by simpa using hD, ?_⟩
      simpa using (by omega : c.ttl < t - T)
    have hg2 : (c2.set key s.promises.length T).get key t =
        (none, { c2.set key s.promises.length T with
                   entries := ((c2.set key s.promises.length T).entries).filter
                     (fun e2 => e2.key != key) }) := by
      unfold LruState.get
      rw [hfind]
      simp [hstale]
    rw [cacheRequest_miss sel key t _ _ _ (by simp) hg2]
    simp only [setPool_promises, pool_with_promises, setPool_invocations, hS2prom]
    simp

theorem C3_ttl_window_witness :
    (let s0 := mkHatxState Nat Nat (.opts (some 5) (some 10) none)
     let r1 := cacheRequest .general "k" 0 s0
     let s2 := settle r1.1 (.ok 42) r1.2
     s2.promises[r1.1]? = some ⟨.resolved 42, some (.general, "k")⟩ ∧
     (∀ t, t ≤ 0 + LruState.ttl ⟨5, 10, []⟩ →
        (cacheRequest .general "k" t s2).1 = r1.1 ∧
        (cacheRequest .general "k" t s2).2.invocations = s2.invocations) ∧
     (∀ t, 0 + LruState.ttl ⟨5, 10, []⟩ < t →
        (cacheRequest .general "k" t s2).2.invocations = s2.invocations ++ ["k"] ∧
        (cacheRequest .general "k" t s2).1 = s2.promises.length)) :=
  C3_ttl_window .general "k" 0 (mkHatxState Nat Nat (.opts (some 5) (some 10) none))
    ⟨5, 10, []⟩ 42 (by decide) (by decide) (by decide) (by decide)

/-! ## C4: forced-refresh bypass -/

/-- C4 (counterexample): the claim quantifies over every cached facade
operation, but `getBeadByAllele` does not bypass the cache on a
forced-refresh call — it only forwards the flags to the transport
config.  Concretely: after a normal call caches `bead:get:A*01:01`, a
call with `refresh: true, refreshData: true` is answered from the cache
(same promise back, no factory invocation), i.e. it does read an
existing cache entry. -/
theorem C4_counterexample :
    (let s0 := mkHatxState Nat Nat .undefinedCfg
     let r1 := getBeadByAllele "A*01:01" {} 0 s0
     let r2 := getBeadByAllele "A*01:01" ⟨some true, some true⟩ 1 r1.2
     r2.1 = r1.1 ∧ r2.2.invocations = r1.2.invocations) := by
  dsimp only
  decide

/-- C4 (amended): only `getArdReducedByAllele` implements the bypass.
For it, a call with `refresh: true` or `refreshData: true` skips the
cache entirely: both pools are left exactly unchanged, the factory is
invoked directly on a fresh promise with no failure cleanup registered
(nothing is read from or written into any pool), and a subsequent
normal call for the same key is still served from whatever entry was
cached before the bypassed call. -/
theorem C4_ard_bypass {V E : Type} (allele : String) (opts : ArdReduceOptions)
    (now : Nat) (s : HatxState V E)
    (hv : requiredStringFails allele = false)
    (hr : opts.refresh = some true ∨ opts.refreshData = some true) :
    (getArdReducedByAllele allele opts now s).2.cache = s.cache ∧
    (getArdReducedByAllele allele opts now s).2.serologicalCache = s.serologicalCache ∧
    (getArdReducedByAllele allele opts now s).1 = .ok s.promises.length ∧
    (getArdReducedByAllele allele opts now s).2.promises =
      s.promises ++ [⟨.pending, none⟩] ∧
    (getArdReducedByAllele allele opts now s).2.invocations =
      s.invocations ++ [ardReduceKey allele opts.group] ∧
    (∀ (g : Option String) (q : Nat) (c : LruState) (now2 : Nat),
       s.cache = some c → (c.get (ardReduceKey allele g) now2).1 = some q →
       (getArdReducedByAllele allele ⟨g, none, none⟩ now2
          (getArdReducedByAllele allele opts now s).2).1 = .ok q) := by
  have hcond : (opts.refresh == some true || opts.refreshData == some true) = true := by
    rcases hr with h | h <;> simp [h]
  have hmain : getArdReducedByAllele allele opts now s =
      (.ok s.promises.length,
       { s with
           promises := s.promises ++ [(⟨.pending, none⟩ : PromiseRec V E)]
           invocations := s.invocations ++ [ardReduceKey allele opts.group] }) := by
    unfold getArdReducedByAllele
    simp [hv, hcond]
  rw [hmain]
  refine ⟨rfl, rfl, rfl, rfl, rfl, ?_⟩
  intro g q c now2 hc hq
  cases hg2 : c.get (ardReduceKey allele g) now2 with
  | mk o2 c3 =>
  rw [hg2] at hq
  simp only at hq
  subst hq
  unfold getArdReducedByAllele
  simp only [hv, Bool.false_eq_true, if_false]
  have : (({ s with
      promises := s.promises ++ [(⟨.pending, none⟩ : PromiseRec V E)]
      invocations := s.invocations ++ [ardReduceKey allele opts.group] } :
        HatxState V E)).pool .general = some c := by
    simpa [HatxState.pool] using hc
  rw [cacheRequest_hit .general (ardReduceKey allele g) now2 _ _ _ _ this hg2]
  simp

theorem C4_ard_bypass_witness :
    (let s0 := mkHatxState Nat Nat .undefinedCfg
     (getArdReducedByAllele "A*01:01" ⟨none, some true, none⟩ 0 s0).2.cache = s0.cache ∧
     (getArdReducedByAllele "A*01:01" ⟨none, some true, none⟩ 0 s0).2.serologicalCache =
       s0.serologicalCache ∧
     (getArdReducedByAllele "A*01:01" ⟨none, some true, none⟩ 0 s0).1 =
       .ok s0.promises.length ∧
     (getArdReducedByAllele "A*01:01" ⟨none, some true, none⟩ 0 s0).2.promises =
       s0.promises ++ [⟨.pending, none⟩] ∧
     (getArdReducedByAllele "A*01:01" ⟨none, some true, none⟩ 0 s0).2.invocations =
       s0.invocations ++ [ardReduceKey "A*01:01" none] ∧
     (∀ (g : Option String) (q : Nat) (c : LruState) (now2 : Nat),
        s0.cache = some c → (c.get (ardReduceKey "A*01:01" g) now2).1 = some q →
        (getArdReducedByAllele "A*01:01" ⟨g, none, none⟩ now2
           (getArdReducedByAllele "A*01:01" ⟨none, some true, none⟩ 0 s0).2).1 = .ok q)) :=
  C4_ard_bypass "A*01:01" ⟨none, some true, none⟩ 0 (mkHatxState Nat Nat .undefinedCfg)
    (by decide) (Or.inl rfl)

/-! ## C6: pool routing and isolation -/

/-- C6: serological-equivalence operations store and look up their
entries in the volatile pool whenever it exists, leaving the general
pool untouched; every other cached operation uses the general pool and
never touches the volatile one; the two pools are isolated even when
key strings coincide — in particular a general-pool entry under the
exact serological key string does not prevent the serological operation
from invoking its factory; and with no pools configured both kinds of
operations degrade to direct factory passthrough. -/
theorem C6_pool_routing {V E : Type} (allele k : String) (opts : RequestOptions)
    (alleles : List String) (now : Nat) (s : HatxState V E)
    (hv : requiredStringFails allele = false) (hne : alleles.isEmpty = false) :
    (s.serologicalCache.isSome = true →
       (getSerologicalByAllele allele opts now s).2.cache = s.cache ∧
       (querySerological alleles now s).2.cache = s.cache) ∧
    (getBeadByAllele allele opts now s).2.serologicalCache = s.serologicalCache ∧
    (cacheRequest .general k now s).2.serologicalCache = s.serologicalCache ∧
    (cacheRequest .serological k now s).2.cache = s.cache ∧
    (∀ cg cs q, s.cache = some cg → s.serologicalCache = some cs →
       (cg.get ("serological:get:" ++ allele) now).1 = some q →
       (cs.get ("serological:get:" ++ allele) now).1 = none →
       (getSerologicalByAllele allele opts now s).2.invocations =
         s.invocations ++ ["serological:get:" ++ allele]) ∧
    (s.cache = none → s.serologicalCache = none →
       (getSerologicalByAllele allele opts now s).2 =
         { s with promises := s.promises ++ [⟨.pending, none⟩]
                  invocations := s.invocations ++ ["serological:get:" ++ allele] } ∧
       (getBeadByAllele allele opts now s).2 =
         { s with promises := s.promises ++ [⟨.pending, none⟩]
                  invocations := s.invocations ++ ["bead:get:" ++ allele] }) := by
  refine ⟨?_, ?_, ?_, ?_, ?_, ?_⟩
  · intro hsome
    have hsel : serologicalSel s = .serological := by simp [serologicalSel, hsome]
    constructor
    · simp [getSerologicalByAllele, hv, hsel, cacheRequest_serological_cache]
    · simp [querySerological, hne, hsel, cacheRequest_serological_cache]
  · simp [getBeadByAllele, hv, cacheRequest_general_serologicalCache]
  · exact cacheRequest_general_serologicalCache k now s
  · exact cacheRequest_serological_cache k now s
  · intro cg cs q hcg hcs hq hmiss
    have hsel : serologicalSel s = .serological := by simp [serologicalSel, hcs]
    have hp : s.pool .serological = some cs := hcs
    cases hg : cs.get ("serological:get:" ++ allele) now with
    | mk o c2 =>
    rw [hg] at hmiss
    simp only at hmiss
    subst hmiss
    simp only [getSerologicalByAllele, hv, Bool.false_eq_true, if_false, hsel]
    rw [cacheRequest_miss .serological _ now s cs c2 hp hg]
    simp
  · intro hcn hsn
    have hsel : serologicalSel s = .general := by simp [serologicalSel, hsn]
    have hp : s.pool .general = none := hcn
    constructor
    · simp only [getSerologicalByAllele, hv, Bool.false_eq_true, if_false, hsel]
      rw [cacheRequest_nocache .general _ now s hp]
    · simp only [getBeadByAllele, hv, Bool.false_eq_true, if_false]
      rw [cacheRequest_nocache .general _ now s hp]

theorem C6_pool_routing_witness :
    (let s0 := mkHatxState Nat Nat .undefinedCfg
     (s0.serologicalCache.isSome = true →
        (getSerologicalByAllele "A*01:01" {} 0 s0).2.cache = s0.cache ∧
        (querySerological ["A*01:01"] 0 s0).2.cache = s0.cache) ∧
     (getBeadByAllele "A*01:01" {} 0 s0).2.serologicalCache = s0.serologicalCache ∧
     (cacheRequest .general "k" 0 s0).2.serologicalCache = s0.serologicalCache ∧
     (cacheRequest .serological "k" 0 s0).2.cache = s0.cache ∧
     (∀ cg cs q, s0.cache = some cg → s0.serologicalCache = some cs →
        (cg.get ("serological:get:" ++ "A*01:01") 0).1 = some q →
        (cs.get ("serological:get:" ++ "A*01:01") 0).1 = none →
        (getSerologicalByAllele "A*01:01" {} 0 s0).2.invocations =
          s0.invocations ++ ["serological:get:" ++ "A*01:01"]) ∧
     (s0.cache = none → s0.serologicalCache = none →
        (getSerologicalByAllele "A*01:01" {} 0 s0).2 =
          { s0 with promises := s0.promises ++ [⟨.pending, none⟩]
                    invocations := s0.invocations ++ ["serological:get:" ++ "A*01:01"] } ∧
        (getBeadByAllele "A*01:01" {} 0 s0).2 =
          { s0 with promises := s0.promises ++ [⟨.pending, none⟩]
                    invocations := s0.invocations ++ ["bead:get:" ++ "A*01:01"] })) :=
  C6_pool_routing "A*01:01" "k" {} ["A*01:01"] 0 (mkHatxState Nat Nat .undefinedCfg)
    (by decide) (by decide)

/-! ## C7: capacity and least-recently-used eviction -/

/-- C7: a pool's entry count never exceeds its capacity (`set` truncates
at `max`, `get` never grows the list); inserting a fresh key into a full
pool evicts exactly the least-recently-used (last) entry; populating
`max + 1` distinct keys into a fresh pool of capacity `max` leaves
`max` entries and the first-inserted, never-again-accessed key is no
longer served from the cache — the next request for it invokes the
factory; and the lookup (including its TTL check) is independent of the
capacity. -/
theorem C7_capacity_lru (V E : Type) (m : Nat) (_hm : 1 ≤ m) (ks : List String)
    (hnd : ks.Nodup) (hlen : ks.length = m + 1) (k0 : String) (hk0 : ks.head? = some k0)
    (now : Nat) :
    (∃ cf, (populate ks now (mkHatxState V E (.opts (some m) none none))).cache = some cf ∧
       cf.max = m ∧ cf.entries.length = m ∧
       cf.entries.find? (fun e => e.key == k0) = none ∧
       (cacheRequest .general k0 now
           (populate ks now (mkHatxState V E (.opts (some m) none none)))).2.invocations =
         (populate ks now (mkHatxState V E (.opts (some m) none none))).invocations ++ [k0]) ∧
    (∀ (c : LruState) (key : String) (p now2 : Nat),
       (c.set key p now2).entries.length ≤ c.max) ∧
    (∀ (c : LruState) (key : String) (now2 : Nat),
       ((c.get key now2).2).entries.length ≤ c.entries.length) ∧
    (∀ (c : LruState) (key : String) (p now2 : Nat), c.entries.length = c.max →
       1 ≤ c.max → (∀ e ∈ c.entries, e.key ≠ key) →
       (c.set key p now2).entries = ⟨key, p, now2⟩ :: c.entries.dropLast) ∧
    (∀ c1 c2 : LruState, ∀ (key : String) (now2 : Nat), c1.entries = c2.entries →
       c1.ttl = c2.ttl → (c1.get key now2).1 = (c2.get key now2).1) := by
  refine ⟨?_, ?_, ?_, ?_, ?_⟩
  · -- the populate scenario
    obtain ⟨kt, rfl⟩ : ∃ kt, ks = k0 :: kt := by
      cases ks with
      | nil => cases hk0
      | cons a l =>
        simp only [List.head?] at hk0
        exact ⟨l, by rw [(Option.some.injEq _ _).mp hk0]⟩
    have hc0 : (mkHatxState V E (.opts (some m) none none)).cache =
        some ⟨m, DEFAULT_CACHE_TTL, []⟩ := by
      simp [mkHatxState, resolveCacheOptions]
    obtain ⟨nl, hkeys, hcache, hinv, _⟩ :=
      populate_entries now (k0 :: kt) (mkHatxState V E (.opts (some m) none none))
        ⟨m, DEFAULT_CACHE_TTL, []⟩ hc0 hnd (by intro e he; cases he) (by simp)
    have hnd' := List.nodup_cons.mp hnd
    dsimp only at hcache
    have hktlen : kt.length = m := by simpa using hlen
    have hlnl : nl.length = m + 1 := by
      have h := congrArg List.length hkeys
      simpa [hktlen] using h
    have hkeystake : (nl.take m).map LruEntry.key = kt.reverse := by
      have hrev : (nl.map LruEntry.key).take m = kt.reverse := by
        rw [hkeys]
        have hkt : kt.reverse.length = m := by simpa using hktlen
        rw [List.reverse_cons, ← hkt, List.take_left]
      rw [← List.map_take] at hrev
      exact hrev
    have hfind : (nl.take m).find? (fun e => e.key == k0) = none := by
      rw [List.find?_eq_none]
      intro e he
      have hk : e.key ∈ kt.reverse := by
        rw [← hkeystake]
        exact List.mem_map_of_mem _ he
      have : e.key ≠ k0 := by
        intro h
        rw [h] at hk
        exact hnd'.1 (List.mem_reverse.mp hk)
      simpa using this
    refine ⟨{ max := m, ttl := DEFAULT_CACHE_TTL,
              entries := ((nl ++ []).take m) }, hcache, rfl, ?_, ?_, ?_⟩
    · simp [hlnl]
    · simpa using hfind
    · have hg : LruState.get
          { max := m, ttl := DEFAULT_CACHE_TTL, entries := (nl ++ []).take m } k0 now =
          (none, { max := m, ttl := DEFAULT_CACHE_TTL, entries := (nl ++ []).take m }) := by
        unfold LruState.get
        simp only [List.append_nil]
        rw [hfind]
      rw [cacheRequest_miss .general k0 now _ _ _ hcache hg]
      simp
  · intro c key p now2
    exact List.length_take_le _ _
  · intro c key now2
    unfold LruState.get
    cases hf : c.entries.find? (fun e => e.key == key) with
    | none => exact Nat.le_refl _
    | some e =>
      have hmem := List.mem_of_find?_eq_some hf
      have hpe := List.find?_some hf
      simp only
      split
      · exact List.length_filter_le _ _
      · simp only [List.length_cons]
        exact length_filter_lt _ c.entries e hmem (by simp_all)
  · intro c key p now2 hfull hone hfresh
    have hfilter : c.entries.filter (fun e => e.key != key) = c.entries := by
      rw [List.filter_eq_self]
      intro e he
      simpa using hfresh e he
    unfold LruState.set
    rw [hfilter]
    obtain ⟨mm, hmm⟩ : ∃ mm, c.max = mm + 1 := ⟨c.max - 1, by omega⟩
    rw [hmm, List.take_succ_cons]
    rw [List.dropLast_eq_take, hfull, hmm]
    simp
  · intro c1 c2 key now2 hent httl
    unfold LruState.get
    rw [hent]
    cases hf : c2.entries.find? (fun e => e.key == key) with
    | none => rfl
    | some e =>
      simp only [LruState.isStale, httl]
      split <;> rfl

theorem C7_capacity_lru_witness :
    ((∃ cf, (populate ["a", "b", "c"] 0 (mkHatxState Nat Nat (.opts (some 2) none none))).cache =
          some cf ∧
       cf.max = 2 ∧ cf.entries.length = 2 ∧
       cf.entries.find? (fun e => e.key == "a") = none ∧
       (cacheRequest .general "a" 0
           (populate ["a", "b", "c"] 0
             (mkHatxState Nat Nat (.opts (some 2) none none)))).2.invocations =
         (populate ["a", "b", "c"] 0
           (mkHatxState Nat Nat (.opts (some 2) none none))).invocations ++ ["a"]) ∧
     (∀ (c : LruState) (key : String) (p now2 : Nat),
        (c.set key p now2).entries.length ≤ c.max) ∧
     (∀ (c : LruState) (key : String) (now2 : Nat),
        ((c.get key now2).2).entries.length ≤ c.entries.length) ∧
     (∀ (c : LruState) (key : String) (p now2 : Nat), c.entries.length = c.max →
        1 ≤ c.max → (∀ e ∈ c.entries, e.key ≠ key) →
        (c.set key p now2).entries = ⟨key, p, now2⟩ :: c.entries.dropLast) ∧
     (∀ c1 c2 : LruState, ∀ (key : String) (now2 : Nat), c1.entries = c2.entries →
        c1.ttl = c2.ttl → (c1.get key now2).1 = (c2.get key now2).1)) :=
  C7_capacity_lru Nat Nat 2 (by decide) ["a", "b", "c"] (by decide) (by decide) "a"
    (by decide) 0

/-! ## C8: validation fast-fail -/

/-- C8: an empty or whitespace-only identifier fails the
fetch-by-identifier operations with the ValidationError message and
leaves the state exactly unchanged (so no cache lookup, no cache write
and no factory invocation happened), and an empty identifier sequence
fails the query-by-identifiers operations likewise. -/
theorem C8_validation_fast_fail {V E : Type} (allele : String) (opts : RequestOptions)
    (aopts : ArdReduceOptions) (now : Nat) (s : HatxState V E)
    (h : jsTrim allele = "") :
    getBeadByAllele allele opts now s = (.error (requiredStringMsg "allele"), s) ∧
    getSerologicalByAllele allele opts now s = (.error (requiredStringMsg "allele"), s) ∧
    getArdReducedByAllele allele aopts now s = (.error (requiredStringMsg "allele"), s) ∧
    queryBeads ([] : List String) now s = (.error (requiredArrayMsg "alleles"), s) ∧
    querySerological ([] : List String) now s = (.error (requiredArrayMsg "alleles"), s) := by
  have hf : requiredStringFails allele = true := by
    simp [requiredStringFails, h]
  refine ⟨?_, ?_, ?_, ?_, ?_⟩ <;>
    simp [getBeadByAllele, getSerologicalByAllele, getArdReducedByAllele, queryBeads,
      querySerological, hf]

theorem C8_validation_fast_fail_witness :
    jsTrim "   " = "" ∧
    getBeadByAllele "   " {} 0 (mkHatxState Nat Nat .undefinedCfg) =
      (.error (requiredStringMsg "allele"), mkHatxState Nat Nat .undefinedCfg) :=
  ⟨by decide,
   (C8_validation_fast_fail "   " {} {} 0 (mkHatxState Nat Nat .undefinedCfg) (by decide)).1⟩

/-! ## C9: empty vs absent payload -/

/-- C9 (counterexample): the claim states that an empty payload and an
absent payload serialize to the same fixed sentinel token; in the code
the empty object payload serializes to `{}` while only the absent
payload yields the sentinel `undefined` — two different tokens. -/
theorem C9_counterexample :
    stableSerialize (JsValue.obj []) ≠ stableSerialize JsValue.undef ∧
    stableSerialize (JsValue.obj []) = "{}" ∧
    stableSerialize JsValue.undef = "undefined" := by
  refine ⟨by decide, by decide, by decide⟩

/-- C9 (amended): an absent payload serializes to the fixed sentinel
token `undefined`, an empty object payload to the well-formed token
`{}`; both are non-empty strings (and the full key additionally carries
the operation-name prefix), but the two tokens differ. -/
theorem C9_sentinel :
    stableSerialize JsValue.undef = "undefined" ∧
    stableSerialize JsValue.undef ≠ "" ∧
    stableSerialize (JsValue.obj []) = "{}" ∧
    stableSerialize (JsValue.obj []) ≠ "" := by
  refine ⟨by decide, by decide, by decide, by decide⟩

/-! ## C10: cache option resolution -/

/-- C10: a cache options object specifying `ttl` but omitting
`serologicalTtl` resolves the volatile ttl to the given general ttl
(`serologicalTtl ?? ttl ?? default`); the 15-minute default applies only
when neither is given; an explicit `serologicalTtl` always wins; and
both constructed pools share the single resolved `max`. -/
theorem C10_cache_option_resolution (V E : Type) (m tt : Option Nat) (t st : Nat)
    (cfg : CacheConfig) (c1 c2 : LruState)
    (h1 : (mkHatxState V E cfg).cache = some c1)
    (h2 : (mkHatxState V E cfg).serologicalCache = some c2) :
    resolveCacheOptions (.opts m (some t) none) =
      some ⟨m.getD DEFAULT_CACHE_MAX_ENTRIES, t, t⟩ ∧
    resolveCacheOptions (.opts m none none) =
      some ⟨m.getD DEFAULT_CACHE_MAX_ENTRIES, DEFAULT_CACHE_TTL, DEFAULT_SEROLOGICAL_TTL⟩ ∧
    (resolveCacheOptions (.opts m tt (some st))).map ResolvedCacheOptions.serologicalTtl =
      some st ∧
    c1.max = c2.max := by
  refine ⟨by simp [resolveCacheOptions], by simp [resolveCacheOptions],
    by simp [resolveCacheOptions], ?_⟩
  unfold mkHatxState at h1 h2
  cases hr : resolveCacheOptions cfg with
  | none => rw [hr] at h1; simp at h1
  | some o =>
    rw [hr] at h1 h2
    simp only [Option.some.injEq] at h1 h2
    rw [← h1, ← h2]

theorem C10_cache_option_resolution_witness :
    (mkHatxState Nat Nat CacheConfig.undefinedCfg).cache = some ⟨1000, 3600000, []⟩ ∧
    (mkHatxState Nat Nat CacheConfig.undefinedCfg).serologicalCache =
      some ⟨1000, 900000, []⟩ ∧
    (resolveCacheOptions (.opts (some 7) (some 60000) none) =
      some ⟨7, 60000, 60000⟩ ∧
    resolveCacheOptions (.opts (some 7) none none) =
      some ⟨7, DEFAULT_CACHE_TTL, DEFAULT_SEROLOGICAL_TTL⟩ ∧
    (resolveCacheOptions (.opts (some 7) (some 60000) (some 5))).map
      ResolvedCacheOptions.serologicalTtl = some 5 ∧
    LruState.max ⟨1000, 3600000, []⟩ = LruState.max ⟨1000, 900000, []⟩) :=
  ⟨by decide, by decide,
   C10_cache_option_resolution Nat Nat (some 7) (some 60000) 60000 5
     CacheConfig.undefinedCfg ⟨1000, 3600000, []⟩ ⟨1000, 900000, []⟩
     (by decide) (by decide)⟩

/-! ## C5 development, part 1: the canonicalizer respects field reordering

`keySort` facts: it permutes its input, its output is sorted by key, and
on duplicate-free keys two keySorted permutations of each other are
equal. -/

theorem charListLt_asymm : ∀ x y : List Char,
    charListLt x y = true → charListLt y x = false
  | [], [], h => by simp [charListLt] at h
  | [], _ :: _, _ => by simp [charListLt]
  | _ :: _, [], h => by simp [charListLt] at h
  | c :: cs, d :: ds, h => by
    simp only [charListLt] at h ⊢
    rcases lt_trichotomy c d with hcd | hcd | hcd
    · simp [hcd, not_lt_of_gt hcd]
    · subst hcd
      simp only [lt_irrefl, if_false] at h ⊢
      exact charListLt_asymm cs ds h
    · simp [hcd, not_lt_of_gt hcd] at h

theorem charListLt_connex : ∀ x y : List Char,
    charListLt x y = false → charListLt y x = false → x = y
  | [], [], _, _ => rfl
  | [], _ :: _, h, _ => by simp [charListLt] at h
  | _ :: _, [], _, h => by simp [charListLt] at h
  | c :: cs, d :: ds, h1, h2 => by
    simp only [charListLt] at h1 h2
    rcases lt_trichotomy c d with hcd | hcd | hcd
    · simp [hcd] at h1
    · subst hcd
      simp only [lt_irrefl, if_false] at h1 h2
      rw [charListLt_connex cs ds h1 h2]
    · simp [hcd] at h2

theorem strLt_asymm {a b : String} (h : strLt a b = true) : strLt b a = false :=
  charListLt_asymm _ _ h

theorem strLt_connex {a b : String} (h1 : strLt a b = false) (h2 : strLt b a = false) :
    a = b := by
  cases a with
  | mk da =>
    cases b with
    | mk db => exact congrArg String.mk (charListLt_connex da db h1 h2)

/-- The sorted-by-key relation `keySort` establishes. -/
def keyLe {α : Type} (a b : String × α) : Prop := strLt b.1 a.1 = false

/-- The strict sorted-by-key relation on duplicate-free field lists. -/
def keyLtRel {α : Type} (a b : String × α) : Prop := strLt a.1 b.1 = true

theorem keyInsert_perm {α : Type} (p : String × α) :
    ∀ l : List (String × α), (keyInsert p l).Perm (p :: l)
  | [] => List.Perm.refl _
  | q :: qs => by
    unfold keyInsert
    split
    · exact List.Perm.refl _
    · exact ((keyInsert_perm p qs).cons q).trans (List.Perm.swap p q qs)

theorem keySort_perm {α : Type} : ∀ l : List (String × α), (keySort l).Perm l
  | [] => List.Perm.refl _
  | p :: ps => (keyInsert_perm p (keySort ps)).trans ((keySort_perm ps).cons p)

theorem charListLt_trans : ∀ x y z : List Char,
    charListLt x y = true → charListLt y z = true → charListLt x z = true
  | [], [], _, h1, _ => by simp [charListLt] at h1
  | [], _ :: _, [], _, h2 => by simp [charListLt] at h2
  | [], _ :: _, _ :: _, _, _ => by simp [charListLt]
  | _ :: _, [], _, h1, _ => by simp [charListLt] at h1
  | _ :: _, _ :: _, [], _, h2 => by simp [charListLt] at h2
  | c :: cs, d :: ds, e :: es, h1, h2 => by
    simp only [charListLt] at h1 h2 ⊢
    rcases lt_trichotomy c d with hcd | hcd | hcd
    · rcases lt_trichotomy d e with hde | hde | hde
      · simp [lt_trans hcd hde]
      · subst hde
        simp [hcd]
      · simp [hde, not_lt_of_gt hde] at h2
    · subst hcd
      simp only [lt_irrefl, if_false] at h1
      rcases lt_trichotomy c e with hce | hce | hce
      · simp [hce]
      · subst hce
        simp only [lt_irrefl, if_false] at h2 ⊢
        exact charListLt_trans cs ds es h1 h2
      · simp [hce, not_lt_of_gt hce] at h2
    · simp [hcd, not_lt_of_gt hcd] at h1

theorem strLt_trans {a b c : String} (h1 : strLt a b = true) (h2 : strLt b c = true) :
    strLt a c = true :=
  charListLt_trans _ _ _ h1 h2

theorem keyInsert_sorted {α : Type} (p : String × α) :
    ∀ l : List (String × α), l.Pairwise keyLe → (keyInsert p l).Pairwise keyLe
  | [], _ => by simp [keyInsert, List.pairwise_cons, keyLe]
  | q :: qs, h => by
    rcases List.pairwise_cons.mp h with ⟨hq, hqs⟩
    unfold keyInsert
    split
    · rename_i hc
      refine List.pairwise_cons.mpr ⟨?_, h⟩
      intro a ha
      rcases List.mem_cons.mp ha with rfl | ha
      · exact strLt_asymm hc
      · unfold keyLe
        cases hlt : strLt a.1 p.1 with
        | false => rfl
        | true =>
          have : strLt a.1 q.1 = true := strLt_trans hlt hc
          rw [hq a ha] at this
          cases this
    · rename_i hc
      refine List.pairwise_cons.mpr ⟨?_, keyInsert_sorted p qs hqs⟩
      intro a ha
      have := (keyInsert_perm p qs).mem_iff.mp ha
      rcases List.mem_cons.mp this with rfl | ha2
      · exact eq_false_of_ne_true hc
      · exact hq a ha2

theorem keySort_sorted {α : Type} : ∀ l : List (String × α), (keySort l).Pairwise keyLe
  | [] => List.Pairwise.nil
  | p :: ps => keyInsert_sorted p (keySort ps) (keySort_sorted ps)

theorem pairwise_strict_of_le_nodup {α : Type} (l : List (String × α))
    (hle : l.Pairwise keyLe) (hnd : (l.map Prod.fst).Nodup) : l.Pairwise keyLtRel := by
  have hne : l.Pairwise (fun a b : String × α => a.1 ≠ b.1) := List.pairwise_map.mp hnd
  refine (hle.and hne).imp ?_
  rintro a b ⟨h1, h2⟩
  cases hab : strLt a.1 b.1 with
  | true => exact hab
  | false => exact absurd (strLt_connex hab h1) h2

theorem eq_of_perm_strict {α : Type} {l₁ l₂ : List (String × α)} (hp : l₁.Perm l₂)
    (h1 : l₁.Pairwise keyLtRel) (h2 : l₂.Pairwise keyLtRel) : l₁ = l₂ := by
  haveI : IsAntisymm (String × α) keyLtRel :=
    ⟨fun a b ha hb => absurd hb (by simp [keyLtRel, strLt_asymm ha])⟩
  exact List.eq_of_perm_of_sorted hp h1 h2

theorem noDupKeyStrings_iff : ∀ fs : List (String × JsValue),
    noDupKeyStrings fs = true ↔ (fs.map Prod.fst).Nodup
  | [] => by simp [noDupKeyStrings]
  | (k, v) :: fs => by
    simp only [noDupKeyStrings, Bool.and_eq_true, List.map_cons, List.nodup_cons,
      noDupKeyStrings_iff fs, List.all_eq_true, List.mem_map]
    constructor
    · rintro ⟨hall, hnd⟩
      refine ⟨?_, hnd⟩
      rintro ⟨p, hp, hkey⟩
      have := hall p hp
      rw [hkey] at this
      simp at this
    · rintro ⟨hmem, hnd⟩
      refine ⟨?_, hnd⟩
      intro p hp
      have : p.1 ≠ k := fun h => hmem ⟨p, hp, h⟩
      simpa using this

theorem sortFields_eq : ∀ l : List (String × JsValue),
    sortFields l = mapVals (dropUndefFields l)
  | [] => rfl
  | (k, v) :: fs => by
    cases v <;>
      simp [sortFields, dropUndefFields, mapVals, List.filter, JsValue.isUndef,
        sortFields_eq fs]

theorem mapVals_fst (l : List (String × JsValue)) :
    (mapVals l).map Prod.fst = l.map Prod.fst := by
  simp [mapVals, List.map_map]

theorem wfKeysF_mem : ∀ fs : List (String × JsValue), wfKeysF fs = true →
    ∀ kv ∈ fs, wfKeysV kv.2 = true
  | [], _, _, h => by cases h
  | (k, v) :: fs, hw, kv, h => by
    simp only [wfKeysF, Bool.and_eq_true] at hw
    rcases List.mem_cons.mp h with rfl | h2
    · exact hw.1
    · exact wfKeysF_mem fs hw.2 kv h2

theorem mapVals_congr : ∀ l₁ l₂ : List (String × JsValue),
    l₁.map Prod.fst = l₂.map Prod.fst →
    List.Forall₂ ObjPermEquiv (l₁.map Prod.snd) (l₂.map Prod.snd) →
    (∀ p ∈ l₁, wfKeysV p.2 = true) → (∀ q ∈ l₂, wfKeysV q.2 = true) →
    (∀ p ∈ l₁, ∀ y, ObjPermEquiv p.2 y → wfKeysV p.2 = true → wfKeysV y = true →
       sortValue p.2 = sortValue y) →
    mapVals l₁ = mapVals l₂
  | [], [], _, _, _, _, _ => rfl
  | [], q :: l₂, hk, _, _, _, _ => by simp at hk
  | p :: l₁, [], hk, _, _, _, _ => by simp at hk
  | p :: l₁, q :: l₂, hk, hf, hw1, hw2, ih => by
    simp only [List.map_cons, List.cons.injEq] at hk
    rcases List.forall₂_cons.mp hf with ⟨hpq, hf2⟩
    simp only [mapVals, List.map_cons, List.cons.injEq]
    refine ⟨?_, ?_⟩
    · have hv : sortValue p.2 = sortValue q.2 :=
        ih p (List.mem_cons_self _ _) q.2 hpq (hw1 p (List.mem_cons_self _ _))
          (hw2 q (List.mem_cons_self _ _))
      rw [Prod.ext_iff]
      exact ⟨hk.1, hv⟩
    · exact mapVals_congr l₁ l₂ hk.2 hf2
        (fun a ha => hw1 a (List.mem_cons_of_mem _ ha))
        (fun a ha => hw2 a (List.mem_cons_of_mem _ ha))
        (fun a ha => ih a (List.mem_cons_of_mem _ ha))

theorem sortList_congr : ∀ xs ys : List JsValue, List.Forall₂ ObjPermEquiv xs ys →
    wfKeysL xs = true → wfKeysL ys = true →
    (∀ x ∈ xs, ∀ y, ObjPermEquiv x y → wfKeysV x = true → wfKeysV y = true →
       sortValue x = sortValue y) →
    sortList xs = sortList ys
  | [], [], _, _, _, _ => rfl
  | [], _ :: _, hf, _, _, _ => by cases hf
  | _ :: _, [], hf, _, _, _ => by cases hf
  | x :: xs, y :: ys, hf, h1, h2, ih => by
    rcases List.forall₂_cons.mp hf with ⟨hxy, hf2⟩
    simp only [wfKeysL, Bool.and_eq_true] at h1 h2
    simp only [sortList]
    rw [ih x (List.mem_cons_self _ _) y hxy h1.1 h2.1,
      sortList_congr xs ys hf2 h1.2 h2.2 (fun a ha => ih a (List.mem_cons_of_mem _ ha))]

/-- C5 core, soundness direction: structurally equivalent payloads (up
to field order and dropped `undefined` fields) have the same canonical
form, provided object keys are duplicate-free as in every JS object. -/
theorem equiv_sortValue : ∀ v₁ v₂ : JsValue, ObjPermEquiv v₁ v₂ →
    wfKeysV v₁ = true → wfKeysV v₂ = true → sortValue v₁ = sortValue v₂
  | _, _, .undef, _, _ => rfl
  | _, _, .null, _, _ => rfl
  | _, _, .boolean _, _, _ => rfl
  | _, _, .num _, _, _ => rfl
  | _, _, .str _, _, _ => rfl
  | .arr xs, .arr ys, .arr hf, h1, h2 => by
    simp only [sortValue]
    rw [sortList_congr xs ys hf (by simpa [wfKeysV] using h1) (by simpa [wfKeysV] using h2)
      (fun x hx y hxy hw1 hw2 => equiv_sortValue x y hxy hw1 hw2)]
  | .obj fs, .obj gs, .obj hk hf hperm, h1, h2 => by
    rename_i l
    simp only [sortValue]
    have h1' := (Bool.and_eq_true _ _).mp (by simpa [wfKeysV] using h1)
    have h2' := (Bool.and_eq_true _ _).mp (by simpa [wfKeysV] using h2)
    have hw1 : ∀ p ∈ dropUndefFields fs, wfKeysV p.2 = true := fun p hp =>
      wfKeysF_mem fs h1'.2 p (List.mem_of_mem_filter hp)
    have hw2 : ∀ q ∈ l, wfKeysV q.2 = true := fun q hq =>
      wfKeysF_mem gs h2'.2 q (List.mem_of_mem_filter (hperm.mem_iff.mp hq))
    have hm : mapVals (dropUndefFields fs) = mapVals l :=
      mapVals_congr _ _ hk hf hw1 hw2
        (fun p hp y hpy hwp hwy => equiv_sortValue p.2 y hpy hwp hwy)
    have hchain : (keySort (sortFields fs)).Perm (keySort (sortFields gs)) := by
      refine (keySort_perm _).trans (.trans ?_ (keySort_perm _).symm)
      rw [sortFields_eq, sortFields_eq, hm]
      exact hperm.map _
    have hnd1 : ((keySort (sortFields fs)).map Prod.fst).Nodup := by
      have hpm : ((keySort (sortFields fs)).map Prod.fst).Perm
          ((dropUndefFields fs).map Prod.fst) := by
        rw [sortFields_eq]
        exact ((keySort_perm _).map _).trans (by rw [mapVals_fst])
      refine hpm.nodup_iff.mpr ?_
      exact ((List.filter_sublist fs).map Prod.fst).nodup
        ((noDupKeyStrings_iff fs).mp h1'.1)
    have hnd2 : ((keySort (sortFields gs)).map Prod.fst).Nodup := by
      have hpm : ((keySort (sortFields gs)).map Prod.fst).Perm
          ((dropUndefFields gs).map Prod.fst) := by
        rw [sortFields_eq]
        exact ((keySort_perm _).map _).trans (by rw [mapVals_fst])
      refine hpm.nodup_iff.mpr ?_
      exact ((List.filter_sublist gs).map Prod.fst).nodup
        ((noDupKeyStrings_iff gs).mp h2'.1)
    rw [eq_of_perm_strict hchain
      (pairwise_strict_of_le_nodup _ (keySort_sorted _) hnd1)
      (pairwise_strict_of_le_nodup _ (keySort_sorted _) hnd2)]
termination_by v₁ => sizeOf v₁
decreasing_by
  · have h := List.sizeOf_lt_of_mem hx
    simp only [JsValue.arr.sizeOf_spec]
    omega
  · have h := List.sizeOf_lt_of_mem (List.mem_of_mem_filter hp)
    have h2 : sizeOf p.2 < sizeOf p := by
      cases p with
      | mk a b => simp only [Prod.mk.sizeOf_spec]; omega
    simp only [JsValue.obj.sizeOf_spec]
    omega

/-! ## C5 development, part 2: digits, runs, and plain strings -/

theorem digitChar_isDigit : ∀ n : Nat, (digitChar n).isDigit = true := by
  intro n
  unfold digitChar
  split <;> decide

theorem digitChar_toNat : ∀ n : Nat, n < 10 → (digitChar n).toNat = 48 + n := by
  intro n h
  interval_cases n <;> decide

theorem digitChar_inj {i j : Nat} (hi : i < 10) (hj : j < 10)
    (h : digitChar i = digitChar j) : i = j := by
  have h2 := congrArg Char.toNat h
  rw [digitChar_toNat i hi, digitChar_toNat j hj] at h2
  omega

theorem natCharsAux_congr : ∀ f1 f2 n : Nat, n ≤ f1 → n ≤ f2 →
    natCharsAux f1 n = natCharsAux f2 n := by
  intro f1
  induction f1 with
  | zero =>
    intro f2 n h1 _
    interval_cases n
    cases f2 with
    | zero => rfl
    | succ f2 => simp [natCharsAux, digitChar]
  | succ f1 ih =>
    intro f2 n h1 h2
    cases f2 with
    | zero =>
      interval_cases n
      simp [natCharsAux, digitChar]
    | succ f2 =>
      simp only [natCharsAux]
      split
      · rfl
      · rename_i hn
        have hd : n / 10 < n := Nat.div_lt_self (by omega) (by omega)
        rw [ih f2 (n / 10) (by omega) (by omega)]

theorem natChars_eq (n : Nat) : natChars n =
    if n < 10 then [digitChar n] else natChars (n / 10) ++ [digitChar (n % 10)] := by
  unfold natChars
  split
  · rename_i h
    cases n with
    | zero => rfl
    | succ m => simp [natCharsAux, h]
  · rename_i h
    have hd : n / 10 < n := Nat.div_lt_self (by omega) (by omega)
    cases n with
    | zero => omega
    | succ m =>
      simp only [natCharsAux]
      rw [if_neg h]
      congr 1
      have hdd : (m + 1) / 10 < m + 1 := Nat.div_lt_self (by omega) (by omega)
      exact natCharsAux_congr m ((m + 1) / 10) ((m + 1) / 10) (by omega) (Nat.le_refl _)

theorem natChars_ne_nil (n : Nat) : natChars n ≠ [] := by
  rw [natChars_eq]
  split
  · simp
  · simp

theorem natChars_digits : ∀ n : Nat, ∀ c ∈ natChars n, c.isDigit = true := by
  intro n
  induction n using Nat.strong_induction_on with
  | _ n ih =>
    rw [natChars_eq]
    split
    · intro c hc
      simp only [List.mem_singleton] at hc
      subst hc
      exact digitChar_isDigit n
    · rename_i h
      intro c hc
      rcases List.mem_append.mp hc with h1 | h1
      · exact ih (n / 10) (Nat.div_lt_self (by omega) (by omega)) c h1
      · simp only [List.mem_singleton] at h1
        subst h1
        exact digitChar_isDigit _

theorem natChars_inj : ∀ m n : Nat, natChars m = natChars n → m = n := by
  intro m
  induction m using Nat.strong_induction_on with
  | _ m ih =>
    intro n h
    by_cases hm : m < 10 <;> by_cases hn : n < 10
    · rw [natChars_eq m, natChars_eq n, if_pos hm, if_pos hn] at h
      simp only [List.cons.injEq, and_true] at h
      exact digitChar_inj hm hn h
    · rw [natChars_eq m, natChars_eq n, if_pos hm, if_neg hn] at h
      have hlen := congrArg List.length h
      simp only [List.length_singleton, List.length_append] at hlen
      have : natChars (n / 10) = [] := by
        cases hx : natChars (n / 10) with
        | nil => rfl
        | cons a l => rw [hx] at hlen; simp at hlen
      exact absurd this (natChars_ne_nil _)
    · rw [natChars_eq m, natChars_eq n, if_neg hm, if_pos hn] at h
      have hlen := congrArg List.length h
      simp only [List.length_singleton, List.length_append] at hlen
      have : natChars (m / 10) = [] := by
        cases hx : natChars (m / 10) with
        | nil => rfl
        | cons a l => rw [hx] at hlen; simp at hlen
      exact absurd this (natChars_ne_nil _)
    · rw [natChars_eq m, natChars_eq n, if_neg hm, if_neg hn] at h
      have hrev := congrArg List.reverse h
      simp only [List.reverse_append, List.reverse_cons, List.reverse_nil,
        List.nil_append, List.cons_append, List.singleton_append] at hrev
      have hd : digitChar (m % 10) = digitChar (n % 10) := by
        injection hrev
      have ht : (natChars (m / 10)).reverse = (natChars (n / 10)).reverse := by
        injection hrev
      have h10 : m % 10 = n % 10 :=
        digitChar_inj (Nat.mod_lt _ (by omega)) (Nat.mod_lt _ (by omega)) hd
      have hdiv : m / 10 = n / 10 :=
        ih (m / 10) (Nat.div_lt_self (by omega) (by omega)) (n / 10)
          (List.reverse_injective ht)
      omega

theorem intChars_cons : ∀ i : Int, ∃ c cs, intChars i = c :: cs ∧
    (c.isDigit = true ∨ c = '-') := by
  intro i
  unfold intChars
  split
  · exact ⟨'-', _, rfl, Or.inr rfl⟩
  · obtain ⟨c, cs, h⟩ : ∃ c cs, natChars i.toNat = c :: cs := by
      cases hn : natChars i.toNat with
      | nil => exact absurd hn (natChars_ne_nil _)
      | cons c cs => exact ⟨c, cs, rfl⟩
    exact ⟨c, cs, h,
      Or.inl (natChars_digits _ c (by rw [h]; exact List.mem_cons_self _ _))⟩

theorem digit_run : ∀ d₁ r₁ d₂ r₂ : List Char,
    (∀ c ∈ d₁, c.isDigit = true) → (∀ c ∈ d₂, c.isDigit = true) →
    (∀ c ∈ r₁.head?, c.isDigit = false) → (∀ c ∈ r₂.head?, c.isDigit = false) →
    d₁ ++ r₁ = d₂ ++ r₂ → d₁ = d₂ ∧ r₁ = r₂
  | [], r₁, [], r₂, _, _, _, _, h => ⟨rfl, h⟩
  | [], r₁, c :: d₂, r₂, _, hd2, hr1, _, h => by
    exfalso
    have hdig : c.isDigit = true := hd2 c (List.mem_cons_self _ _)
    have hnot : c.isDigit = false := by
      apply hr1
      rw [List.nil_append] at h
      rw [h]
      rfl
    rw [hdig] at hnot
    cases hnot
  | c :: d₁, r₁, [], r₂, hd1, _, _, hr2, h => by
    exfalso
    have hdig : c.isDigit = true := hd1 c (List.mem_cons_self _ _)
    have hnot : c.isDigit = false := by
      apply hr2
      rw [List.nil_append] at h
      rw [← h]
      rfl
    rw [hdig] at hnot
    cases hnot
  | c :: d₁, r₁, d :: d₂, r₂, hd1, hd2, hr1, hr2, h => by
    simp only [List.cons_append, List.cons.injEq] at h
    obtain ⟨rfl, h2⟩ := h
    obtain ⟨he, hr⟩ := digit_run d₁ r₁ d₂ r₂
      (fun a ha => hd1 a (List.mem_cons_of_mem _ ha))
      (fun a ha => hd2 a (List.mem_cons_of_mem _ ha)) hr1 hr2 h2
    exact ⟨by rw [he], hr⟩

theorem quote_run : ∀ k₁ r₁ k₂ r₂ : List Char, '"' ∉ k₁ → '"' ∉ k₂ →
    k₁ ++ '"' :: r₁ = k₂ ++ '"' :: r₂ → k₁ = k₂ ∧ r₁ = r₂
  | [], r₁, [], r₂, _, _, h => ⟨rfl, by injection h⟩
  | [], r₁, c :: k₂, r₂, _, h2, h => by
    exfalso
    simp only [List.nil_append, List.cons_append, List.cons.injEq] at h
    exact h2 (h.1 ▸ List.mem_cons_self _ _)
  | c :: k₁, r₁, [], r₂, h1, _, h => by
    exfalso
    simp only [List.nil_append, List.cons_append, List.cons.injEq] at h
    exact h1 (h.1.symm ▸ List.mem_cons_self _ _)
  | c :: k₁, r₁, d :: k₂, r₂, h1, h2, h => by
    simp only [List.cons_append, List.cons.injEq] at h
    obtain ⟨rfl, hrest⟩ := h
    obtain ⟨he, hr⟩ := quote_run k₁ r₁ k₂ r₂
      (fun hc => h1 (List.mem_cons_of_mem _ hc))
      (fun hc => h2 (List.mem_cons_of_mem _ hc)) hrest
    exact ⟨by rw [he], hr⟩

theorem escapeChar_plain {c : Char} (h : plainChar c = true) : escapeChar c = [c] := by
  simp only [plainChar, Bool.and_eq_true, bne_iff_ne, ne_eq, decide_eq_true_eq] at h
  unfold escapeChar
  rw [if_neg h.1.1, if_neg h.1.2, if_neg (by omega)]

theorem escapeData_plain : ∀ l : List Char, (∀ c ∈ l, plainChar c = true) →
    escapeData l = l
  | [], _ => rfl
  | c :: l, h => by
    simp only [escapeData, List.map_cons, List.flatten_cons]
    rw [escapeChar_plain (h c (List.mem_cons_self _ _))]
    have := escapeData_plain l (fun a ha => h a (List.mem_cons_of_mem _ ha))
    simp only [escapeData] at this
    rw [this]
    rfl

theorem quoteChars_plain {s : String} (h : plainString s = true) :
    quoteChars s = '"' :: s.data ++ ['"'] := by
  unfold quoteChars
  rw [escapeData_plain s.data (by simpa [plainString, List.all_eq_true] using h)]

theorem plain_no_quote {s : String} (h : plainString s = true) : '"' ∉ s.data := by
  intro hc
  have h2 := List.all_eq_true.mp h '"' hc
  simp [plainChar] at h2

/-! ## C5 development, part 3: serializations start unambiguously -/

theorem startClass_digit {c : Char} (h : c.isDigit = true) : startClass c = 2 := by
  have hn : c ≠ 'n' := by rintro rfl; exact absurd h (by decide)
  have ht : c ≠ 't' := by rintro rfl; exact absurd h (by decide)
  have hf : c ≠ 'f' := by rintro rfl; exact absurd h (by decide)
  simp [startClass, hn, ht, hf, h]

theorem intChars_inj : ∀ i j : Int, intChars i = intChars j → i = j := by
  intro i j h
  unfold intChars at h
  split at h <;> split at h
  · rename_i hi hj
    simp only [List.cons.injEq, true_and] at h
    have := natChars_inj _ _ h
    omega
  · rename_i hi hj
    exfalso
    obtain ⟨c, cs, hc⟩ : ∃ c cs, natChars j.toNat = c :: cs := by
      cases hn : natChars j.toNat with
      | nil => exact absurd hn (natChars_ne_nil _)
      | cons c cs => exact ⟨c, cs, rfl⟩
    rw [hc] at h
    have hd : c.isDigit = true :=
      natChars_digits _ c (by rw [hc]; exact List.mem_cons_self _ _)
    have hneg : '-' = c := by injection h
    rw [← hneg] at hd
    exact absurd hd (by decide)
  · rename_i hi hj
    exfalso
    obtain ⟨c, cs, hc⟩ : ∃ c cs, natChars i.toNat = c :: cs := by
      cases hn : natChars i.toNat with
      | nil => exact absurd hn (natChars_ne_nil _)
      | cons c cs => exact ⟨c, cs, rfl⟩
    rw [hc] at h
    have hd : c.isDigit = true :=
      natChars_digits _ c (by rw [hc]; exact List.mem_cons_self _ _)
    have hneg : c = '-' := by injection h
    rw [hneg] at hd
    exact absurd hd (by decide)
  · rename_i hi hj
    have := natChars_inj _ _ h
    omega

theorem emit_head : ∀ (v : JsValue) (l : List Char), emitVal v = some l →
    ∃ c t, l = c :: t ∧ startClass c = classOf v
  | .undef, _, h => by cases h
  | .null, _, h => by
    injection h with h
    exact ⟨'n', ['u', 'l', 'l'], by rw [← h]; rfl, by decide⟩
  | .boolean true, _, h => by
    injection h with h
    exact ⟨'t', ['r', 'u', 'e'], by rw [← h], by decide⟩
  | .boolean false, _, h => by
    injection h with h
    exact ⟨'f', ['a', 'l', 's', 'e'], by rw [← h], by decide⟩
  | .num i, _, h => by
    injection h with h
    obtain ⟨c, cs, hc, hd⟩ := intChars_cons i
    refine ⟨c, cs, by rw [← h, hc], ?_⟩
    rcases hd with hd | rfl
    · rw [startClass_digit hd]; rfl
    · exact (by decide : startClass '-' = 2)
  | .str s, _, h => by
    injection h with h
    exact ⟨'"', escapeData s.data ++ ['"'], by rw [← h]; rfl,
      (by decide : startClass '"' = 3)⟩
  | .arr xs, _, h => by
    injection h with h
    exact ⟨'[', emitArr xs ++ [']'], by rw [← h]; exact List.cons_append _ _ _,
      (by decide : startClass '[' = 4)⟩
  | .obj fs, _, h => by
    injection h with h
    exact ⟨'{', emitObj fs ++ ['}'], by rw [← h]; exact List.cons_append _ _ _,
      (by decide : startClass '{' = 5)⟩

theorem Closer_not_digit {r : List Char} (h : Closer r) :
    ∀ c ∈ r.head?, c.isDigit = false := by
  intro c hc
  rcases h with rfl | ⟨d, t, rfl, hd⟩
  · cases hc
  · have hcd : d = c := by simpa using hc
    subst hcd
    rcases hd with rfl | rfl | rfl <;> decide

theorem Closer_startClass {c : Char} {t : List Char} (h : Closer (c :: t)) :
    startClass c = 6 := by
  rcases h with h | ⟨d, t', he, hd⟩
  · cases h
  · have : c = d := by injection he
    subst this
    rcases hd with rfl | rfl | rfl <;> decide

theorem emit_isSome {v : JsValue} (h : cleanV v = true) : ∃ ev, emitVal v = some ev := by
  cases v
  · simp [cleanV] at h
  · exact ⟨_, rfl⟩
  · rename_i b; cases b <;> exact ⟨_, rfl⟩
  · exact ⟨_, rfl⟩
  · exact ⟨_, rfl⟩
  · exact ⟨_, rfl⟩
  · exact ⟨_, rfl⟩

theorem emitObj_cons_nil (k : String) (v : JsValue) (fs : List (String × JsValue))
    (ev : List Char) (hev : emitVal v = some ev) (hrest : emitObj fs = []) :
    emitObj ((k, v) :: fs) = quoteChars k ++ ':' :: ev := by
  simp [emitObj, hev, hrest]

theorem emitObj_cons_cons (k : String) (v : JsValue) (fs : List (String × JsValue))
    (ev : List Char) (c : Char) (t : List Char)
    (hev : emitVal v = some ev) (hrest : emitObj fs = c :: t) :
    emitObj ((k, v) :: fs) = quoteChars k ++ ':' :: ev ++ ',' :: c :: t := by
  simp [emitObj, hev, hrest]

theorem string_data_inj : ∀ {s t : String}, s.data = t.data → s = t
  | ⟨_⟩, ⟨_⟩, h => congrArg String.mk h

theorem closer_nil : Closer [] := Or.inl rfl

theorem closer_comma (r : List Char) : Closer (',' :: r) :=
  Or.inr ⟨_, _, rfl, Or.inl rfl⟩

theorem closer_rbracket (r : List Char) : Closer (']' :: r) :=
  Or.inr ⟨_, _, rfl, Or.inr (Or.inl rfl)⟩

theorem closer_rbrace (r : List Char) : Closer ('}' :: r) :=
  Or.inr ⟨_, _, rfl, Or.inr (Or.inr rfl)⟩

/-- Serializations of values of different syntactic classes can never
continue to the same character stream. -/
theorem emit_head_ne (v₁ v₂ : JsValue) (l₁ l₂ r₁ r₂ : List Char)
    (h1 : emitVal v₁ = some l₁) (h2 : emitVal v₂ = some l₂)
    (hne : classOf v₁ ≠ classOf v₂) : l₁ ++ r₁ ≠ l₂ ++ r₂ := by
  obtain ⟨c₁, t₁, rfl, hc₁⟩ := emit_head v₁ l₁ h1
  obtain ⟨c₂, t₂, rfl, hc₂⟩ := emit_head v₂ l₂ h2
  intro h
  simp only [List.cons_append, List.cons.injEq] at h
  exact hne (hc₁ ▸ hc₂ ▸ congrArg startClass h.1)

theorem emitObj_nil_of_clean : ∀ fs : List (String × JsValue), cleanF fs = true →
    emitObj fs = [] → fs = []
  | [], _, _ => rfl
  | (k, v) :: fs, h, hnil => by
    exfalso
    simp only [cleanF, Bool.and_eq_true] at h
    obtain ⟨ev, hev⟩ := emit_isSome h.1.2
    cases hrest : emitObj fs with
    | nil =>
      rw [emitObj_cons_nil _ _ _ _ hev hrest] at hnil
      simp [quoteChars] at hnil
    | cons c t =>
      rw [emitObj_cons_cons _ _ _ _ _ _ hev hrest] at hnil
      simp [quoteChars] at hnil

/-! ## C5 development, part 4: the serializer is unambiguous

`unamb_all n` packages three statements proved together by strong
induction on size: a serialized clean value followed by a closing
continuation determines the value and the continuation, and likewise for
serialized array bodies and object bodies followed by their closing
bracket. -/

theorem unamb_all : ∀ n : Nat,
    (∀ v₁ v₂ : JsValue, ∀ l₁ l₂ r₁ r₂ : List Char, sizeOf v₁ ≤ n →
       cleanV v₁ = true → cleanV v₂ = true →
       emitVal v₁ = some l₁ → emitVal v₂ = some l₂ →
       Closer r₁ → Closer r₂ → l₁ ++ r₁ = l₂ ++ r₂ → v₁ = v₂ ∧ r₁ = r₂) ∧
    (∀ xs ys : List JsValue, ∀ r₁ r₂ : List Char, sizeOf xs ≤ n →
       cleanL xs = true → cleanL ys = true →
       emitArr xs ++ ']' :: r₁ = emitArr ys ++ ']' :: r₂ → xs = ys ∧ r₁ = r₂) ∧
    (∀ fs gs : List (String × JsValue), ∀ r₁ r₂ : List Char, sizeOf fs ≤ n →
       cleanF fs = true → cleanF gs = true →
       emitObj fs ++ '}' :: r₁ = emitObj gs ++ '}' :: r₂ → fs = gs ∧ r₁ = r₂) := by
  intro n
  induction n using Nat.strong_induction_on with
  | _ n ih =>
  refine ⟨?_, ?_, ?_⟩
  · -- values
    intro v₁ v₂ l₁ l₂ r₁ r₂ hs hc1 hc2 he1 he2 hr1 hr2 heq
    cases v₁ <;> cases v₂
    all_goals try exact Option.noConfusion he1
    all_goals try exact Option.noConfusion he2
    all_goals try exact absurd heq (emit_head_ne _ _ _ _ _ _ he1 he2 (of_decide_eq_false rfl))
    · -- null / null
      injection he1 with he1
      injection he2 with he2
      subst he1
      subst he2
      exact ⟨rfl, List.append_cancel_left heq⟩
    · -- boolean / boolean
      rename_i b₁ b₂
      cases b₁ <;> cases b₂
      · injection he1 with he1
        injection he2 with he2
        subst he1
        subst he2
        exact ⟨rfl, List.append_cancel_left heq⟩
      · injection he1 with he1
        injection he2 with he2
        subst he1
        subst he2
        simp only [List.cons_append, List.cons.injEq] at heq
        exact absurd heq.1 (by decide)
      · injection he1 with he1
        injection he2 with he2
        subst he1
        subst he2
        simp only [List.cons_append, List.cons.injEq] at heq
        exact absurd heq.1 (by decide)
      · injection he1 with he1
        injection he2 with he2
        subst he1
        subst he2
        exact ⟨rfl, List.append_cancel_left heq⟩
    · -- num / num
      rename_i i j
      injection he1 with he1
      injection he2 with he2
      subst he1
      subst he2
      by_cases hi : i < 0 <;> by_cases hj : j < 0
      · simp only [intChars, if_pos hi, if_pos hj, List.cons_append,
          List.cons.injEq, true_and] at heq
        obtain ⟨hn, hr⟩ := digit_run _ _ _ _ (natChars_digits _) (natChars_digits _)
          (Closer_not_digit hr1) (Closer_not_digit hr2) heq
        have := natChars_inj _ _ hn
        exact ⟨by congr 1; omega, hr⟩
      · exfalso
        simp only [intChars, if_pos hi, if_neg hj] at heq
        obtain ⟨c, cs, hcc⟩ : ∃ c cs, natChars j.toNat = c :: cs := by
          cases hn : natChars j.toNat with
          | nil => exact absurd hn (natChars_ne_nil _)
          | cons c cs => exact ⟨c, cs, rfl⟩
        rw [hcc] at heq
        simp only [List.cons_append, List.cons.injEq] at heq
        have hd := natChars_digits j.toNat c (by rw [hcc]; exact List.mem_cons_self _ _)
        rw [← heq.1] at hd
        exact absurd hd (by decide)
      · exfalso
        simp only [intChars, if_neg hi, if_pos hj] at heq
        obtain ⟨c, cs, hcc⟩ : ∃ c cs, natChars i.toNat = c :: cs := by
          cases hn : natChars i.toNat with
          | nil => exact absurd hn (natChars_ne_nil _)
          | cons c cs => exact ⟨c, cs, rfl⟩
        rw [hcc] at heq
        simp only [List.cons_append, List.cons.injEq] at heq
        have hd := natChars_digits i.toNat c (by rw [hcc]; exact List.mem_cons_self _ _)
        rw [heq.1] at hd
        exact absurd hd (by decide)
      · simp only [intChars, if_neg hi, if_neg hj] at heq
        obtain ⟨hn, hr⟩ := digit_run _ _ _ _ (natChars_digits _) (natChars_digits _)
          (Closer_not_digit hr1) (Closer_not_digit hr2) heq
        have := natChars_inj _ _ hn
        exact ⟨by congr 1; omega, hr⟩
    · -- str / str
      rename_i s₁ s₂
      injection he1 with he1
      injection he2 with he2
      subst he1
      subst he2
      have hp1 : plainString s₁ = true := by simpa [cleanV] using hc1
      have hp2 : plainString s₂ = true := by simpa [cleanV] using hc2
      rw [quoteChars_plain hp1, quoteChars_plain hp2] at heq
      simp only [List.cons_append, List.append_assoc, List.singleton_append,
        List.cons.injEq, true_and] at heq
      obtain ⟨hk, hr⟩ := quote_run _ _ _ _ (plain_no_quote hp1) (plain_no_quote hp2) heq
      exact ⟨by rw [string_data_inj hk], hr⟩
    · -- arr / arr
      rename_i xs ys
      injection he1 with he1
      injection he2 with he2
      subst he1
      subst he2
      have hlt : sizeOf xs < n := by
        simp only [JsValue.arr.sizeOf_spec] at hs
        omega
      simp only [List.cons_append, List.append_assoc, List.singleton_append,
        List.cons.injEq, true_and] at heq
      obtain ⟨hxy, hr⟩ := (ih (sizeOf xs) hlt).2.1 xs ys r₁ r₂ (Nat.le_refl _)
        (by simpa [cleanV] using hc1) (by simpa [cleanV] using hc2) heq
      exact ⟨by rw [hxy], hr⟩
    · -- obj / obj
      rename_i fs gs
      injection he1 with he1
      injection he2 with he2
      subst he1
      subst he2
      have hlt : sizeOf fs < n := by
        simp only [JsValue.obj.sizeOf_spec] at hs
        omega
      simp only [List.cons_append, List.append_assoc, List.singleton_append,
        List.cons.injEq, true_and] at heq
      obtain ⟨hxy, hr⟩ := (ih (sizeOf fs) hlt).2.2 fs gs r₁ r₂ (Nat.le_refl _)
        (by simpa [cleanV] using hc1) (by simpa [cleanV] using hc2) heq
      exact ⟨by rw [hxy], hr⟩
  · -- array bodies
    intro xs ys r₁ r₂ hs hc1 hc2 heq
    cases xs with
    | nil =>
      cases ys with
      | nil =>
        simp only [emitArr, List.nil_append, List.cons.injEq, true_and] at heq
        exact ⟨rfl, heq⟩
      | cons y ys2 =>
        exfalso
        simp only [cleanL, Bool.and_eq_true] at hc2
        obtain ⟨ey, hey⟩ := emit_isSome hc2.1
        obtain ⟨c, t, hect, hcc⟩ := emit_head y ey hey
        have hstart : ∃ tail, emitArr (y :: ys2) = c :: tail := by
          cases ys2 with
          | nil => exact ⟨t, by simp [emitArr, hey, hect]⟩
          | cons b l =>
            exact ⟨t ++ ',' :: emitArr (b :: l), by simp [emitArr, hey, hect]⟩
        obtain ⟨tail, htail⟩ := hstart
        rw [htail] at heq
        simp only [emitArr, List.nil_append, List.cons_append, List.cons.injEq] at heq
        have h6 : classOf y = 6 := by
          rw [← hcc, ← heq.1]
          decide
        cases y
        · exact absurd hc2.1 (by decide)
        all_goals simp [classOf] at h6
    | cons x xs2 =>
      cases ys with
      | nil =>
        exfalso
        simp only [cleanL, Bool.and_eq_true] at hc1
        obtain ⟨ex, hex⟩ := emit_isSome hc1.1
        obtain ⟨c, t, hect, hcc⟩ := emit_head x ex hex
        have hstart : ∃ tail, emitArr (x :: xs2) = c :: tail := by
          cases xs2 with
          | nil => exact ⟨t, by simp [emitArr, hex, hect]⟩
          | cons b l =>
            exact ⟨t ++ ',' :: emitArr (b :: l), by simp [emitArr, hex, hect]⟩
        obtain ⟨tail, htail⟩ := hstart
        rw [htail] at heq
        simp only [emitArr, List.nil_append, List.cons_append, List.cons.injEq] at heq
        have h6 : classOf x = 6 := by
          rw [← hcc, heq.1]
          decide
        cases x
        · exact absurd hc1.1 (by decide)
        all_goals simp [classOf] at h6
      | cons y ys2 =>
        simp only [cleanL, Bool.and_eq_true] at hc1 hc2
        obtain ⟨ex, hex⟩ := emit_isSome hc1.1
        obtain ⟨ey, hey⟩ := emit_isSome hc2.1
        have hsx : sizeOf x < n := by
          simp only [List.cons.sizeOf_spec] at hs
          omega
        have hsxs : sizeOf xs2 < n := by
          simp only [List.cons.sizeOf_spec] at hs
          omega
        cases xs2 with
        | nil =>
          cases ys2 with
          | nil =>
            rw [show emitArr [x] = ex from by simp [emitArr, hex],
              show emitArr [y] = ey from by simp [emitArr, hey]] at heq
            obtain ⟨hxy, hr⟩ := (ih (sizeOf x) hsx).1 x y ex ey (']' :: r₁) (']' :: r₂)
              (Nat.le_refl _) hc1.1 hc2.1 hex hey (closer_rbracket _) (closer_rbracket _)
              heq
            refine ⟨by rw [hxy], ?_⟩
            injection hr
          | cons b l =>
            exfalso
            rw [show emitArr [x] = ex from by simp [emitArr, hex],
              show emitArr (y :: b :: l) = ey ++ ',' :: emitArr (b :: l) from by
                simp [emitArr, hey]] at heq
            simp only [List.cons_append, List.append_assoc] at heq
            obtain ⟨_, hr⟩ := (ih (sizeOf x) hsx).1 x y ex ey (']' :: r₁)
              (',' :: (emitArr (b :: l) ++ ']' :: r₂)) (Nat.le_refl _) hc1.1 hc2.1 hex hey
              (closer_rbracket _) (closer_comma _) heq
            have : ']' = ',' := by injection hr
            exact absurd this (by decide)
        | cons a l2 =>
          cases ys2 with
          | nil =>
            exfalso
            rw [show emitArr [y] = ey from by simp [emitArr, hey],
              show emitArr (x :: a :: l2) = ex ++ ',' :: emitArr (a :: l2) from by
                simp [emitArr, hex]] at heq
            simp only [List.cons_append, List.append_assoc] at heq
            obtain ⟨_, hr⟩ := (ih (sizeOf x) hsx).1 x y ex ey
              (',' :: (emitArr (a :: l2) ++ ']' :: r₁)) (']' :: r₂) (Nat.le_refl _)
              hc1.1 hc2.1 hex hey (closer_comma _) (closer_rbracket _) heq
            have : ',' = ']' := by injection hr
            exact absurd this (by decide)
          | cons b l =>
            rw [show emitArr (x :: a :: l2) = ex ++ ',' :: emitArr (a :: l2) from by
                simp [emitArr, hex],
              show emitArr (y :: b :: l) = ey ++ ',' :: emitArr (b :: l) from by
                simp [emitArr, hey]] at heq
            simp only [List.cons_append, List.append_assoc] at heq
            obtain ⟨hxy, hr⟩ := (ih (sizeOf x) hsx).1 x y ex ey
              (',' :: (emitArr (a :: l2) ++ ']' :: r₁))
              (',' :: (emitArr (b :: l) ++ ']' :: r₂)) (Nat.le_refl _)
              hc1.1 hc2.1 hex hey (closer_comma _) (closer_comma _) heq
            have hr2 : emitArr (a :: l2) ++ ']' :: r₁ = emitArr (b :: l) ++ ']' :: r₂ := by
              injection hr
            obtain ⟨hl, hrr⟩ := (ih (sizeOf (a :: l2)) hsxs).2.1 (a :: l2) (b :: l) r₁ r₂
              (Nat.le_refl _) hc1.2 hc2.2 hr2
            exact ⟨by rw [hxy, hl], hrr⟩
  · -- object bodies
    intro fs gs r₁ r₂ hs hc1 hc2 heq
    cases fs with
    | nil =>
      cases gs with
      | nil =>
        simp only [emitObj, List.nil_append, List.cons.injEq, true_and] at heq
        exact ⟨rfl, heq⟩
      | cons kv gs2 =>
        exfalso
        obtain ⟨k, v⟩ := kv
        simp only [cleanF, Bool.and_eq_true] at hc2
        obtain ⟨ev, hev⟩ := emit_isSome hc2.1.2
        cases hh : emitObj gs2 with
        | nil =>
          rw [emitObj_cons_nil _ _ _ _ hev hh] at heq
          simp only [emitObj, List.nil_append, quoteChars, List.cons_append,
            List.append_assoc, List.cons.injEq] at heq
          exact absurd heq.1 (by decide)
        | cons c t =>
          rw [emitObj_cons_cons _ _ _ _ _ _ hev hh] at heq
          simp only [emitObj, List.nil_append, quoteChars, List.cons_append,
            List.append_assoc, List.cons.injEq] at heq
          exact absurd heq.1 (by decide)
    | cons kv fs2 =>
      obtain ⟨k₁, v₁⟩ := kv
      cases gs with
      | nil =>
        exfalso
        simp only [cleanF, Bool.and_eq_true] at hc1
        obtain ⟨ev, hev⟩ := emit_isSome hc1.1.2
        cases hh : emitObj fs2 with
        | nil =>
          rw [emitObj_cons_nil _ _ _ _ hev hh] at heq
          simp only [emitObj, List.nil_append, quoteChars, List.cons_append,
            List.append_assoc, List.cons.injEq] at heq
          exact absurd heq.1.symm (by decide)
        | cons c t =>
          rw [emitObj_cons_cons _ _ _ _ _ _ hev hh] at heq
          simp only [emitObj, List.nil_append, quoteChars, List.cons_append,
            List.append_assoc, List.cons.injEq] at heq
          exact absurd heq.1.symm (by decide)
      | cons kw gs2 =>
        obtain ⟨k₂, v₂⟩ := kw
        simp only [cleanF, Bool.and_eq_true] at hc1 hc2
        obtain ⟨ev₁, hev₁⟩ := emit_isSome hc1.1.2
        obtain ⟨ev₂, hev₂⟩ := emit_isSome hc2.1.2
        have hsv : sizeOf v₁ < n := by
          simp only [List.cons.sizeOf_spec, Prod.mk.sizeOf_spec] at hs
          omega
        have hsfs : sizeOf fs2 < n := by
          simp only [List.cons.sizeOf_spec, Prod.mk.sizeOf_spec] at hs
          omega
        have hsplit1 : ∃ T₁, emitObj ((k₁, v₁) :: fs2) ++ '}' :: r₁ =
            (quoteChars k₁ ++ ':' :: ev₁) ++ T₁ ∧ Closer T₁ ∧
            ((T₁ = '}' :: r₁ ∧ emitObj fs2 = []) ∨
             (T₁ = ',' :: (emitObj fs2 ++ '}' :: r₁) ∧ emitObj fs2 ≠ [])) := by
          by_cases hnil : emitObj fs2 = []
          · refine ⟨'}' :: r₁, ?_, closer_rbrace _, Or.inl ⟨rfl, hnil⟩⟩
            rw [emitObj_cons_nil _ _ _ _ hev₁ hnil]
          · obtain ⟨c, t, hh⟩ : ∃ c t, emitObj fs2 = c :: t := by
              cases hx : emitObj fs2 with
              | nil => exact absurd hx hnil
              | cons c t => exact ⟨c, t, rfl⟩
            refine ⟨',' :: (emitObj fs2 ++ '}' :: r₁), ?_, closer_comma _,
              Or.inr ⟨rfl, hnil⟩⟩
            rw [emitObj_cons_cons _ _ _ _ _ _ hev₁ hh, hh]
            simp [List.append_assoc]
        have hsplit2 : ∃ T₂, emitObj ((k₂, v₂) :: gs2) ++ '}' :: r₂ =
            (quoteChars k₂ ++ ':' :: ev₂) ++ T₂ ∧ Closer T₂ ∧
            ((T₂ = '}' :: r₂ ∧ emitObj gs2 = []) ∨
             (T₂ = ',' :: (emitObj gs2 ++ '}' :: r₂) ∧ emitObj gs2 ≠ [])) := by
          by_cases hnil : emitObj gs2 = []
          · refine ⟨'}' :: r₂, ?_, closer_rbrace _, Or.inl ⟨rfl, hnil⟩⟩
            rw [emitObj_cons_nil _ _ _ _ hev₂ hnil]
          · obtain ⟨c, t, hh⟩ : ∃ c t, emitObj gs2 = c :: t := by
              cases hx : emitObj gs2 with
              | nil => exact absurd hx hnil
              | cons c t => exact ⟨c, t, rfl⟩
            refine ⟨',' :: (emitObj gs2 ++ '}' :: r₂), ?_, closer_comma _,
              Or.inr ⟨rfl, hnil⟩⟩
            rw [emitObj_cons_cons _ _ _ _ _ _ hev₂ hh, hh]
            simp [List.append_assoc]
        obtain ⟨T₁, hT₁, hcl₁, halt₁⟩ := hsplit1
        obtain ⟨T₂, hT₂, hcl₂, halt₂⟩ := hsplit2
        rw [hT₁, hT₂] at heq
        rw [quoteChars_plain hc1.1.1, quoteChars_plain hc2.1.1] at heq
        simp only [List.cons_append, List.append_assoc, List.singleton_append,
          List.cons.injEq, true_and] at heq
        obtain ⟨hk, hrest⟩ := quote_run _ _ _ _ (plain_no_quote hc1.1.1)
          (plain_no_quote hc2.1.1) heq
        have hvrest : ev₁ ++ T₁ = ev₂ ++ T₂ := by injection hrest
        obtain ⟨hv, hT⟩ := (ih (sizeOf v₁) hsv).1 v₁ v₂ ev₁ ev₂ T₁ T₂ (Nat.le_refl _)
          hc1.1.2 hc2.1.2 hev₁ hev₂ hcl₁ hcl₂ hvrest
        rcases halt₁ with ⟨hT1e, hfs2nil⟩ | ⟨hT1e, hfs2ne⟩ <;>
          rcases halt₂ with ⟨hT2e, hgs2nil⟩ | ⟨hT2e, hgs2ne⟩
        · rw [hT1e, hT2e] at hT
          have hfs2 := emitObj_nil_of_clean fs2 hc1.2 hfs2nil
          have hgs2 := emitObj_nil_of_clean gs2 hc2.2 hgs2nil
          refine ⟨?_, by injection hT⟩
          rw [string_data_inj hk, hv, hfs2, hgs2]
        · exfalso
          rw [hT1e, hT2e] at hT
          have : '}' = ',' := by injection hT
          exact absurd this (by decide)
        · exfalso
          rw [hT1e, hT2e] at hT
          have : ',' = '}' := by injection hT
          exact absurd this (by decide)
        · rw [hT1e, hT2e] at hT
          have hT' : emitObj fs2 ++ '}' :: r₁ = emitObj gs2 ++ '}' :: r₂ := by
            injection hT
          obtain ⟨hfg, hrr⟩ := (ih (sizeOf fs2) hsfs).2.2 fs2 gs2 r₁ r₂ (Nat.le_refl _)
            hc1.2 hc2.2 hT'
          refine ⟨?_, hrr⟩
          rw [string_data_inj hk, hv, hfg]

/-- Injectivity of the JSON serializer on clean values. -/
theorem emit_inj {v₁ v₂ : JsValue} {l : List Char} (h1 : cleanV v₁ = true)
    (h2 : cleanV v₂ = true) (e1 : emitVal v₁ = some l) (e2 : emitVal v₂ = some l) :
    v₁ = v₂ :=
  ((unamb_all (sizeOf v₁)).1 v₁ v₂ l l [] [] (Nat.le_refl _) h1 h2 e1 e2
    closer_nil closer_nil (by simp)).1

/-! ## C5 development, part 5: assembling injectivity of `stableSerialize` -/

theorem isUndef_iff (v : JsValue) : v.isUndef = true ↔ v = .undef := by
  cases v <;> simp [JsValue.isUndef]

theorem sortValue_undef_iff (v : JsValue) : sortValue v = .undef ↔ v = .undef := by
  cases v <;> simp [sortValue]

theorem classOf_six : ∀ v : JsValue, classOf v = 6 → v = .undef := by
  intro v h
  cases v <;> simp [classOf] at h ⊢

theorem cleanL_forall : ∀ xs : List JsValue,
    cleanL xs = true ↔ ∀ x ∈ xs, cleanV x = true := by
  intro xs
  induction xs with
  | nil => simp [cleanL]
  | cons x xs ih => simp [cleanL, Bool.and_eq_true, ih]

theorem cleanF_forall : ∀ fs : List (String × JsValue),
    cleanF fs = true ↔ ∀ kv ∈ fs, plainString kv.1 = true ∧ cleanV kv.2 = true := by
  intro fs
  induction fs with
  | nil => simp [cleanF]
  | cons kv fs ih =>
    obtain ⟨k, v⟩ := kv
    simp [cleanF, Bool.and_eq_true, ih, and_assoc]

theorem preCleanL_mem : ∀ xs : List JsValue, preCleanL xs = true →
    ∀ x ∈ xs, x.isUndef = false ∧ preCleanV x = true := by
  intro xs
  induction xs with
  | nil => intro _ x hx; cases hx
  | cons y ys ih =>
    intro h x hx
    simp only [preCleanL, Bool.and_eq_true, Bool.not_eq_true'] at h
    rw [List.mem_cons] at hx
    rcases hx with rfl | hx
    · exact ⟨h.1.1, h.1.2⟩
    · exact ih h.2 x hx

theorem preCleanF_mem : ∀ fs : List (String × JsValue), preCleanF fs = true →
    ∀ kv ∈ fs, plainString kv.1 = true ∧ preCleanV kv.2 = true := by
  intro fs
  induction fs with
  | nil => intro _ kv hkv; cases hkv
  | cons p ps ih =>
    intro h kv hkv
    obtain ⟨k, v⟩ := p
    simp only [preCleanF, Bool.and_eq_true] at h
    rw [List.mem_cons] at hkv
    rcases hkv with rfl | hkv
    · exact ⟨h.1.1, h.1.2⟩
    · exact ih h.2 kv hkv

theorem sortList_eq_map : ∀ xs : List JsValue, sortList xs = xs.map sortValue := by
  intro xs
  induction xs with
  | nil => rfl
  | cons x xs ih => simp [sortList, ih]

/-- A non-`undefined` payload as built by the facade canonicalizes to a
value the serializer represents exactly. -/
theorem preClean_sort_all : ∀ n : Nat, ∀ v : JsValue, sizeOf v ≤ n →
    preCleanV v = true → v.isUndef = false → cleanV (sortValue v) = true := by
  intro n
  induction n using Nat.strong_induction_on with
  | _ n ih =>
  intro v hs hp hu
  cases v with
  | undef => simp [JsValue.isUndef] at hu
  | null => decide
  | boolean b => simp [sortValue, cleanV]
  | num i => simp [sortValue, cleanV]
  | str s => simpa [sortValue, cleanV, preCleanV] using hp
  | arr xs =>
    simp only [sortValue, cleanV]
    rw [cleanL_forall]
    intro x hx
    rw [sortList_eq_map] at hx
    obtain ⟨y, hy, rfl⟩ := List.mem_map.mp hx
    have hpl : preCleanL xs = true := by simpa [preCleanV] using hp
    have hmem := preCleanL_mem xs hpl y hy
    have hlt : sizeOf y < n := by
      have h1 := List.sizeOf_lt_of_mem hy
      simp only [JsValue.arr.sizeOf_spec] at hs
      omega
    exact ih (sizeOf y) hlt y (Nat.le_refl _) hmem.2 hmem.1
  | obj fs =>
    simp only [sortValue, cleanV]
    rw [cleanF_forall]
    intro kv hkv
    have hkv2 : kv ∈ sortFields fs := ((keySort_perm _).mem_iff).mp hkv
    rw [sortFields_eq] at hkv2
    obtain ⟨⟨k, v⟩, hin, rfl⟩ := List.mem_map.mp hkv2
    have hin2 := List.mem_filter.mp hin
    have hpf : preCleanF fs = true := by simpa [preCleanV] using hp
    have hm := preCleanF_mem fs hpf _ hin2.1
    refine ⟨hm.1, ?_⟩
    have hvu : v.isUndef = false := by
      have := hin2.2
      simpa [Bool.not_eq_true'] using this
    have hlt : sizeOf v < n := by
      have h1 := List.sizeOf_lt_of_mem hin2.1
      simp only [Prod.mk.sizeOf_spec] at h1
      simp only [JsValue.obj.sizeOf_spec] at hs
      omega
    exact ih (sizeOf v) hlt v (Nat.le_refl _) hm.2 hvu

theorem preClean_sort (v : JsValue) (hp : preCleanV v = true)
    (hu : v.isUndef = false) : cleanV (sortValue v) = true :=
  preClean_sort_all (sizeOf v) v (Nat.le_refl _) hp hu

theorem stableSerialize_of_emit {v : JsValue} {l : List Char}
    (h : emitVal (sortValue v) = some l) : stableSerialize v = l.asString := by
  unfold stableSerialize stringifyJson
  rw [h]
  rfl

theorem serialize_inj (p r : JsValue) (hp : preCleanV p = true)
    (hr : preCleanV r = true) (hne : sortValue p ≠ sortValue r) :
    stableSerialize p ≠ stableSerialize r := by
  cases hpu : p.isUndef <;> cases hru : r.isUndef
  · -- both defined
    obtain ⟨l₁, h₁⟩ := emit_isSome (preClean_sort p hp hpu)
    obtain ⟨l₂, h₂⟩ := emit_isSome (preClean_sort r hr hru)
    rw [stableSerialize_of_emit h₁, stableSerialize_of_emit h₂]
    intro hcon
    have hl : l₁ = l₂ := congrArg String.data hcon
    subst hl
    exact hne (emit_inj (preClean_sort p hp hpu) (preClean_sort r hr hru) h₁ h₂)
  · -- p defined, r undefined
    have hr' : r = .undef := (isUndef_iff r).mp hru
    subst hr'
    obtain ⟨l, hl⟩ := emit_isSome (preClean_sort p hp hpu)
    rw [stableSerialize_of_emit hl]
    intro hcon
    have hdata : l = ('u' :: 'n' :: 'd' :: 'e' :: 'f' :: 'i' :: 'n' :: 'e' :: 'd' :: []) :=
      congrArg String.data hcon
    obtain ⟨c, t, rfl, hc⟩ := emit_head _ _ hl
    have hcu : c = 'u' := by injection hdata
    rw [hcu] at hc
    have h6 : classOf (sortValue p) = 6 := by
      rw [← hc]
      decide
    have hpun : p = .undef := (sortValue_undef_iff p).mp (classOf_six _ h6)
    subst hpun
    exact absurd hpu (by decide)
  · -- p undefined, r defined
    have hp' : p = .undef := (isUndef_iff p).mp hpu
    subst hp'
    obtain ⟨l, hl⟩ := emit_isSome (preClean_sort r hr hru)
    rw [stableSerialize_of_emit hl]
    intro hcon
    have hdata : l = ('u' :: 'n' :: 'd' :: 'e' :: 'f' :: 'i' :: 'n' :: 'e' :: 'd' :: []) :=
      congrArg String.data hcon.symm
    obtain ⟨c, t, rfl, hc⟩ := emit_head _ _ hl
    have hcu : c = 'u' := by injection hdata
    rw [hcu] at hc
    have h6 : classOf (sortValue r) = 6 := by
      rw [← hc]
      decide
    have hrun : r = .undef := (sortValue_undef_iff r).mp (classOf_six _ h6)
    subst hrun
    exact absurd hru (by decide)
  · -- both undefined
    exfalso
    have hp' : p = .undef := (isUndef_iff p).mp hpu
    have hr' : r = .undef := (isUndef_iff r).mp hru
    subst hp'
    subst hr'
    exact hne rfl

/-! ## C5 development, part 6: `sortValue` computes the source's
sort-then-loop

The source sorts the keys first (`Object.keys(value).sort()`) and then
runs the drop-and-recurse loop; the embedding runs the loop
(`sortFields`) first and sorts its output.  `sortFields_keySort`
certifies that the two orders agree: the loop's filter and value map
both commute with the stable key sort. -/

theorem strLt_trans_le {a b c : String} (h1 : strLt a b = true)
    (h2 : strLt c b = false) : strLt a c = true := by
  cases hx : strLt a c with
  | true => rfl
  | false =>
    cases hy : strLt c a with
    | true => exact absurd (strLt_trans hy h1) (by simp [h2])
    | false =>
      have hac : a = c := strLt_connex hx hy
      subst hac
      rw [h1] at h2
      exact Bool.noConfusion h2

theorem filter_keyInsert_neg {α : Type} (pred : String × α → Bool) (p : String × α)
    (hp : pred p = false) :
    ∀ l : List (String × α), (keyInsert p l).filter pred = l.filter pred
  | [] => by simp [keyInsert, List.filter_cons, hp]
  | q :: qs => by
    by_cases hlt : strLt p.1 q.1 = true
    · simp [keyInsert, hlt, List.filter_cons, hp]
    · have hlt' : strLt p.1 q.1 = false := by
        revert hlt
        cases strLt p.1 q.1 <;> simp
      simp [keyInsert, hlt', List.filter_cons, filter_keyInsert_neg pred p hp qs]

theorem filter_keyInsert_pos {α : Type} (pred : String × α → Bool) (p : String × α)
    (hp : pred p = true) :
    ∀ l : List (String × α), l.Pairwise keyLe →
      (keyInsert p l).filter pred = keyInsert p (l.filter pred)
  | [], _ => by simp [keyInsert, List.filter_cons, hp]
  | q :: qs, hs => by
    rcases List.pairwise_cons.mp hs with ⟨hq, hqs⟩
    by_cases hlt : strLt p.1 q.1 = true
    · cases hpq : pred q with
      | true => simp [keyInsert, hlt, List.filter_cons, hp, hpq]
      | false =>
        have hall : ∀ r ∈ qs.filter pred, strLt p.1 r.1 = true := by
          intro r hr
          exact strLt_trans_le hlt (hq r (List.mem_of_mem_filter hr))
        cases hfq : qs.filter pred with
        | nil => simp [keyInsert, hlt, List.filter_cons, hp, hpq, hfq]
        | cons r rs =>
          have hr : strLt p.1 r.1 = true :=
            hall r (by rw [hfq]; exact List.mem_cons_self _ _)
          simp [keyInsert, hlt, List.filter_cons, hp, hpq, hfq, hr]
    · have hlt' : strLt p.1 q.1 = false := by
        revert hlt
        cases strLt p.1 q.1 <;> simp
      cases hpq : pred q with
      | true =>
        simp [keyInsert, hlt', List.filter_cons, hp, hpq,
          filter_keyInsert_pos pred p hp qs hqs]
      | false =>
        simp [keyInsert, hlt', List.filter_cons, hpq,
          filter_keyInsert_pos pred p hp qs hqs]

theorem dropUndef_keySort : ∀ fs : List (String × JsValue),
    dropUndefFields (keySort fs) = keySort (dropUndefFields fs)
  | [] => rfl
  | p :: ps => by
    simp only [dropUndefFields, keySort, List.filter_cons]
    cases hp : !p.2.isUndef with
    | true =>
      rw [filter_keyInsert_pos _ p hp (keySort ps) (keySort_sorted ps)]
      have ihp := dropUndef_keySort ps
      simp only [dropUndefFields] at ihp
      rw [ihp]
      simp [keySort]
    | false =>
      rw [filter_keyInsert_neg _ p hp (keySort ps)]
      have ihp := dropUndef_keySort ps
      simp only [dropUndefFields] at ihp
      simp [hp, ihp]

theorem map_keyInsert (p : String × JsValue) :
    ∀ l : List (String × JsValue),
      (keyInsert p l).map (fun kv => (kv.1, sortValue kv.2)) =
        keyInsert (p.1, sortValue p.2) (l.map (fun kv => (kv.1, sortValue kv.2)))
  | [] => rfl
  | q :: qs => by
    by_cases hlt : strLt p.1 q.1 = true
    · simp [keyInsert, hlt]
    · have hlt' : strLt p.1 q.1 = false := by
        revert hlt
        cases strLt p.1 q.1 <;> simp
      simp [keyInsert, hlt', map_keyInsert p qs]

theorem mapVals_keySort : ∀ l : List (String × JsValue),
    mapVals (keySort l) = keySort (mapVals l)
  | [] => rfl
  | p :: ps => by
    have ih := mapVals_keySort ps
    simp only [mapVals] at ih ⊢
    simp [keySort, map_keyInsert p (keySort ps), ih]

/-- The embedding's loop-then-sort equals the source's sort-then-loop. -/
theorem sortFields_keySort (fs : List (String × JsValue)) :
    sortFields (keySort fs) = keySort (sortFields fs) := by
  rw [sortFields_eq, sortFields_eq, dropUndef_keySort, mapVals_keySort]

/-- C5: the key builder (an operation prefix followed by
`stableSerialize` of the payload) is order-independent and injective on
retained values: two payloads that are structurally equal up to object
key insertion order — recursively, with `undefined`-valued fields
disregarded — produce the same key string, and two well-formed payloads
whose canonical forms differ produce different key strings. -/
theorem C5_key_builder (op : String) (p q r : JsValue)
    (hpw : wfKeysV p = true) (hqw : wfKeysV q = true)
    (hpc : preCleanV p = true) (hrc : preCleanV r = true)
    (heq : ObjPermEquiv p q) (hne : sortValue p ≠ sortValue r) :
    op ++ stableSerialize p = op ++ stableSerialize q ∧
    op ++ stableSerialize p ≠ op ++ stableSerialize r := by
  constructor
  · have h : sortValue p = sortValue q := equiv_sortValue p q heq hpw hqw
    have h2 : stableSerialize p = stableSerialize q := by
      unfold stableSerialize
      rw [h]
    rw [h2]
  · intro hcon
    have hdata := congrArg String.data hcon
    simp only [String.data_append] at hdata
    have h2 : stableSerialize p = stableSerialize r :=
      string_data_inj (List.append_cancel_left hdata)
    exact serialize_inj p r hpc hrc hne h2

theorem C5_key_builder_witness :
    "alleles:" ++ stableSerialize
        (.obj [("allele", .str "A*01:01"), ("version", .num 2)]) =
      "alleles:" ++ stableSerialize
        (.obj [("version", .num 2), ("allele", .str "A*01:01"), ("note", .undef)]) ∧
    "alleles:" ++ stableSerialize
        (.obj [("allele", .str "A*01:01"), ("version", .num 2)]) ≠
      "alleles:" ++ stableSerialize
        (.obj [("allele", .str "B*08:01"), ("version", .num 2)]) :=
  C5_key_builder "alleles:"
    (.obj [("allele", .str "A*01:01"), ("version", .num 2)])
    (.obj [("version", .num 2), ("allele", .str "A*01:01"), ("note", .undef)])
    (.obj [("allele", .str "B*08:01"), ("version", .num 2)])
    (by decide) (by decide) (by decide) (by decide)
    (@ObjPermEquiv.obj _ _
      [("allele", .str "A*01:01"), ("version", .num 2)]
      (by decide)
      (List.Forall₂.cons (ObjPermEquiv.str "A*01:01")
        (List.Forall₂.cons (ObjPermEquiv.num 2) List.Forall₂.nil))
      (List.Perm.swap ("version", JsValue.num 2) ("allele", JsValue.str "A*01:01") []))
    (by decide)

end Hatx

